import Mathlib

/-!
# Verification of the Calculus RAG retrieval and routing core

This development embeds the core algorithms of the Calculus RAG repository
(hybrid reciprocal-rank-fusion search, prerequisite-aware retrieval, model
routing with complexity analysis and fallback, and the prerequisite graph)
as executable Lean definitions, and proves the behavioural properties of
the specification against them.

Conventions used throughout:
* Python `dict`s are modelled as association lists that preserve insertion
  order: updating an existing key rewrites its value in place, a new key is
  appended at the end (matching CPython dict semantics).
* Python `float` arithmetic on scores is modelled with exact rationals `ℚ`.
* Python's stable sorts (`sorted`, `list.sort`) are modelled by a stable
  insertion sort; stable sorting by a fixed key is unique, so any stable
  sort models them faithfully.
-/

namespace CalculusRag

/-- Entry lookup in an insertion-ordered dictionary. -/
def dictGet {α : Type} (m : List (String × α)) (k : String) : Option α :=
  (m.find? (fun p => p.1 = k)).map (fun p => p.2)

/-- Key membership in an insertion-ordered dictionary. -/
def dictHas {α : Type} (m : List (String × α)) (k : String) : Bool :=
  m.any (fun p => p.1 = k)

/-- `d[k] = v` on an insertion-ordered dictionary: existing keys are updated
in place, new keys appended (CPython dict semantics). -/
def dictSet {α : Type} (m : List (String × α)) (k : String) (v : α) :
    List (String × α) :=
  if dictHas m k then
    m.map (fun p => if p.1 = k then (k, v) else p)
  else
    m ++ [(k, v)]

/-- The keys of a dictionary in insertion order. -/
def dictKeys {α : Type} (m : List (String × α)) : List String :=
  m.map (fun p => p.1)

theorem dictGet_dictSet_self {α : Type} (m : List (String × α)) (k : String)
    (v : α) : dictGet (dictSet m k v) k = some v := by
  unfold dictSet dictHas
  split
  next h =>
    induction m with
    | nil => simp_all [dictGet]
    | cons p rest ih =>
      simp only [List.any_cons, Bool.or_eq_true, decide_eq_true_eq] at h
      by_cases hp : p.1 = k
      · simp [dictGet, hp]
      · rcases h with h | h
        · exact absurd h hp
        · simpa [dictGet, hp, List.find?] using ih h
  next h =>
    induction m with
    | nil => simp [dictGet]
    | cons p rest ih =>
      simp only [dictHas, List.any_cons, Bool.or_eq_true, decide_eq_true_eq,
        not_or] at h
      simpa [dictGet, h.1, List.find?] using ih (by simp [dictHas, h.2])

theorem dictGet_dictSet_ne {α : Type} (m : List (String × α)) (k k' : String)
    (v : α) (h : k' ≠ k) : dictGet (dictSet m k v) k' = dictGet m k' := by
  unfold dictSet dictHas
  split
  next hmem =>
    clear hmem
    induction m with
    | nil => simp [dictGet]
    | cons p rest ih =>
      by_cases hp : p.1 = k
      · simp [dictGet, hp, List.find?, Ne.symm h] at ih ⊢
        exact ih
      · simp only [List.map_cons, if_neg hp]
        by_cases hp' : p.1 = k'
        · simp [dictGet, List.find?, hp']
        · simp [dictGet, List.find?, hp'] at ih ⊢
          exact ih
  next hmem =>
    clear hmem
    induction m with
    | nil => simp [dictGet, List.find?, Ne.symm h]
    | cons p rest ih =>
      by_cases hp' : p.1 = k'
      · simp [dictGet, List.find?, hp']
      · simp [dictGet, List.find?, hp'] at ih ⊢
        exact ih

/-! ## Generic stable sorting

Python's `sorted` and `list.sort` are stable.  A stable sort by a fixed key
order has a unique output, so the stable insertion sort below models them
faithfully.  `before x y = true` means the element `x`, when inserted, must
be placed before the already-placed element `y`; for stability `before` must
hold on key-equal pairs. -/

/-- Stable insertion of one element: `x` goes in front of the first element
`y` it must precede. -/
def insertStable {α : Type} (before : α → α → Bool) (x : α) :
    List α → List α
  | [] => [x]
  | y :: ys => if before x y then x :: y :: ys else y :: insertStable before x ys

/-- Stable insertion sort. -/
def sortStable {α : Type} (before : α → α → Bool) : List α → List α
  | [] => []
  | x :: xs => insertStable before x (sortStable before xs)

theorem insertStable_perm {α : Type} (before : α → α → Bool) (x : α)
    (l : List α) : (insertStable before x l).Perm (x :: l) := by
  induction l with
  | nil => simp [insertStable]
  | cons y ys ih =>
    unfold insertStable
    split
    · exact List.Perm.refl _
    · exact ((ih.cons y).trans (List.Perm.swap x y ys))

theorem sortStable_perm {α : Type} (before : α → α → Bool) (l : List α) :
    (sortStable before l).Perm l := by
  induction l with
  | nil => simp [sortStable]
  | cons x xs ih =>
    exact (insertStable_perm before x (sortStable before xs)).trans (ih.cons x)

theorem insertStable_pairwise {α : Type} (before : α → α → Bool)
    (htot : ∀ a b, before a b = true ∨ before b a = true)
    (htrans : ∀ a b c, before a b = true → before b c = true →
      before a c = true)
    (x : α) (l : List α) (hl : l.Pairwise (fun a b => before a b = true)) :
    (insertStable before x l).Pairwise (fun a b => before a b = true) := by
  induction l with
  | nil => simp [insertStable]
  | cons y ys ih =>
    obtain ⟨hy, hys⟩ := List.pairwise_cons.mp hl
    unfold insertStable
    split
    next hxy =>
      refine List.Pairwise.cons ?_ hl
      intro b hb
      rcases List.mem_cons.mp hb with rfl | hb
      · exact hxy
      · exact htrans x y b hxy (hy b hb)
    next hxy =>
      have hyx : before y x = true := by
        rcases htot x y with h | h
        · exact absurd h (by simpa using hxy)
        · exact h
      refine List.Pairwise.cons ?_ (ih hys)
      intro b hb
      have hb' := (insertStable_perm before x ys).mem_iff.mp hb
      rcases List.mem_cons.mp hb' with rfl | hb'
      · exact hyx
      · exact hy b hb'

theorem sortStable_pairwise {α : Type} (before : α → α → Bool)
    (htot : ∀ a b, before a b = true ∨ before b a = true)
    (htrans : ∀ a b c, before a b = true → before b c = true →
      before a c = true)
    (l : List α) :
    (sortStable before l).Pairwise (fun a b => before a b = true) := by
  induction l with
  | nil => simp [sortStable]
  | cons x xs ih =>
    exact insertStable_pairwise before htot htrans x _ ih

/-- A list already in order is left untouched by the stable sort. -/
theorem sortStable_eq_self {α : Type} (before : α → α → Bool) (l : List α)
    (hl : l.Pairwise (fun a b => before a b = true)) :
    sortStable before l = l := by
  induction l with
  | nil => rfl
  | cons x xs ih =>
    obtain ⟨hx, hxs⟩ := List.pairwise_cons.mp hl
    unfold sortStable
    rw [ih hxs]
    cases xs with
    | nil => rfl
    | cons y ys => simp [insertStable, hx y (by simp)]

/-! ## Substring and tokenization utilities

Python string operations used by the analyzers, modelled over `List Char`
(`String.data`).  `str.lower`, keyword containment (`in`), `str.split()` and
the math-symbol regex scan are embedded below. -/

/-- Does the list start with the given prefix of characters? -/
def listStartsWith : List Char → List Char → Bool
  | [], _ => true
  | _ :: _, [] => false
  | c :: cs, d :: ds => c = d && listStartsWith cs ds

/-- Python's substring containment `sub in s`. -/
def listContainsSub (sub : List Char) : List Char → Bool
  | [] => listStartsWith sub []
  | c :: cs => listStartsWith sub (c :: cs) || listContainsSub sub cs

/-- Python `str.lower()` (the texts involved are ASCII). -/
def lowerData (s : String) : List Char := s.data.map Char.toLower

/-- Helper for `str.split()`: counts maximal non-whitespace runs; the flag
records whether the previous character was inside a word. -/
def countWordsAux : List Char → Bool → Nat
  | [], _ => 0
  | c :: cs, inWord =>
    if c.isWhitespace then countWordsAux cs false
    else (if inWord then 0 else 1) + countWordsAux cs true

/-- Python `len(s.split())`: the number of whitespace-separated words. -/
def wordCount (cs : List Char) : Nat := countWordsAux cs false

/-! ## ComplexityAnalyzer (src/calculus_rag/llm/model_router.py) -/

/-- The three question complexity tiers, with their Python enum values. -/
inductive ComplexityLevel where
  | SIMPLE
  | MODERATE
  | COMPLEX
deriving DecidableEq, Repr

namespace ComplexityLevel

/-- The integer value of each tier (`SIMPLE = 1`, `MODERATE = 2`,
`COMPLEX = 3`). -/
def value : ComplexityLevel → Nat
  | SIMPLE => 1
  | MODERATE => 2
  | COMPLEX => 3

/-- The Python enum member name, as used in response metadata. -/
def name : ComplexityLevel → String
  | SIMPLE => "SIMPLE"
  | MODERATE => "MODERATE"
  | COMPLEX => "COMPLEX"

end ComplexityLevel

namespace ComplexityAnalyzer

/-- `ComplexityAnalyzer.COMPLEX_KEYWORDS`. -/
def COMPLEX_KEYWORDS : List String :=
  ["prove", "proof", "derive", "derivation", "why does", "explain why",
   "rigorous", "justify", "show that", "demonstrate", "integration by parts",
   "u-substitution", "chain rule", "implicit differentiation", "related rates",
   "optimization", "taylor series", "fourier"]

/-- `ComplexityAnalyzer.SIMPLE_KEYWORDS`. -/
def SIMPLE_KEYWORDS : List String :=
  ["what is", "define", "definition", "basic", "simple", "calculate",
   "find the derivative of", "power rule", "constant rule"]

/-- The character class of the math-symbol regex
`[∫∑∏√±∞αβγθλπ]|\\frac|\\int|\\sum`. -/
def mathSymbolChars : List Char :=
  ['∫', '∑', '∏', '√', '±', '∞', 'α', 'β', 'γ', 'θ', 'λ', 'π']

/-- Scanner for the math-symbol regex; structural recursion on a fuel that
starts at the character count.  Every step consumes at least one character,
so the fuel (decremented by one per step) never runs out before the input
does. -/
def mathSymbolCountAux : Nat → List Char → Nat
  | 0, _ => 0
  | _ + 1, [] => 0
  | fuel + 1, c :: cs =>
    if c ∈ mathSymbolChars then 1 + mathSymbolCountAux fuel cs
    else if c = '\\' then
      if listStartsWith "frac".data cs then
        1 + mathSymbolCountAux fuel (cs.drop 4)
      else if listStartsWith "int".data cs then
        1 + mathSymbolCountAux fuel (cs.drop 3)
      else if listStartsWith "sum".data cs then
        1 + mathSymbolCountAux fuel (cs.drop 3)
      else mathSymbolCountAux fuel cs
    else mathSymbolCountAux fuel cs

/-- `len(re.findall(r'[∫∑∏√±∞αβγθλπ]|\\frac|\\int|\\sum', question))`:
left-to-right scan counting non-overlapping matches, trying the regex
alternatives in order at each position. -/
def mathSymbolCount (cs : List Char) : Nat := mathSymbolCountAux cs.length cs

/-- The keyword-loop score: `+= 2` for each keyword contained in the
lower-cased question. -/
def keywordScore (keywords : List String) (ql : List Char) : Nat :=
  keywords.foldl (fun s k => if listContainsSub k.data ql then s + 2 else s) 0

/-- `ComplexityAnalyzer.analyze`, as the literal sequence of score updates
from the source: keyword matches, then the word-count branch, then the
math-symbol branch, then the final decision. -/
def analyze (question : String) : ComplexityLevel :=
  let ql := lowerData question
  let complexScore := keywordScore COMPLEX_KEYWORDS ql
  let simpleScore := keywordScore SIMPLE_KEYWORDS ql
  let wc := wordCount question.data
  let complexScore := if wc > 30 then complexScore + 1 else complexScore
  let simpleScore :=
    if wc > 30 then simpleScore
    else if wc < 10 then simpleScore + 1 else simpleScore
  let ms := mathSymbolCount question.data
  let complexScore :=
    if ms > 3 then complexScore + 2
    else if ms > 1 then complexScore + 1 else complexScore
  if complexScore ≥ 3 then ComplexityLevel.COMPLEX
  else if simpleScore ≥ 3 ∨ simpleScore > complexScore then
    ComplexityLevel.SIMPLE
  else ComplexityLevel.MODERATE

/-- Closed form of the final complex-score of a question. -/
def complexScoreOf (question : String) : Nat :=
  keywordScore COMPLEX_KEYWORDS (lowerData question)
    + (if wordCount question.data > 30 then 1 else 0)
    + (if mathSymbolCount question.data > 3 then 2
       else if mathSymbolCount question.data > 1 then 1 else 0)

/-- Closed form of the final simple-score of a question. -/
def simpleScoreOf (question : String) : Nat :=
  keywordScore SIMPLE_KEYWORDS (lowerData question)
    + (if wordCount question.data > 30 then 0
       else if wordCount question.data < 10 then 1 else 0)

end ComplexityAnalyzer

/-- C7: `ComplexityAnalyzer.analyze` returns COMPLEX if the complex-score is
≥ 3; otherwise SIMPLE if the simple-score is ≥ 3 or the simple-score exceeds
the complex-score; otherwise MODERATE — the complex check is applied first,
so a question scoring high on both axes resolves to COMPLEX.  In particular,
"Prove why the chain rule works using the limit definition" is classified
COMPLEX. -/
theorem complexity_analyzer_decision_rule :
    (∀ q : String,
      ComplexityAnalyzer.analyze q =
        (if ComplexityAnalyzer.complexScoreOf q ≥ 3 then
          ComplexityLevel.COMPLEX
         else if ComplexityAnalyzer.simpleScoreOf q ≥ 3 ∨
             ComplexityAnalyzer.simpleScoreOf q >
               ComplexityAnalyzer.complexScoreOf q then
          ComplexityLevel.SIMPLE
         else ComplexityLevel.MODERATE)) ∧
    ComplexityAnalyzer.analyze
        "Prove why the chain rule works using the limit definition" =
      ComplexityLevel.COMPLEX := by
  constructor
  · intro q
    dsimp only [ComplexityAnalyzer.analyze, ComplexityAnalyzer.complexScoreOf,
      ComplexityAnalyzer.simpleScoreOf]
    split_ifs <;> first | rfl | omega
  · decide

/-! ## ModelRouter (src/calculus_rag/llm/model_router.py)

The LLM handles behind the router are external collaborators; they are
modelled as functions from (messages, temperature, max_tokens) to either a
response or a raised error message. -/

/-- A metadata value stored in a result's or response's metadata dict. -/
inductive MetaVal where
  | str : String → MetaVal
  | bool : Bool → MetaVal
  | num : ℚ → MetaVal
deriving DecidableEq, Repr

/-- An insertion-ordered metadata dictionary. -/
abbrev Metadata := List (String × MetaVal)

/-- One chat message (`LLMMessage`). -/
structure LLMMessage where
  role : String
  content : String

/-- A generated response (`LLMResponse`). -/
structure LLMResponse where
  content : String
  metadata : Metadata

/-- The behaviour of an external LLM's `generate`: messages, temperature and
optional max-tokens produce a response or raise. -/
def LLMFun : Type := List LLMMessage → ℚ → Option Nat → Except String LLMResponse

/-- `ModelConfig`: one binding of the routing system. -/
structure ModelConfig where
  llm : LLMFun
  name : String
  maxComplexity : ComplexityLevel
  isFallback : Bool

/-- `ModelRouter` state: the bindings, the fallback switch, and the mutable
last-model-used observation. -/
structure ModelRouter where
  models : List ModelConfig
  enableFallback : Bool
  lastModelUsed : Option String

/-- A fresh router (`ModelRouter.__init__`, `enable_fallback=True`). -/
def routerInit : ModelRouter :=
  { models := [], enableFallback := true, lastModelUsed := none }

/-- `ModelRouter.add_model`: append the new binding, then re-sort the list
ascending by max-complexity value (Python `list.sort` is stable). -/
def addModel (r : ModelRouter) (llm : LLMFun) (name : String)
    (maxComplexity : ComplexityLevel) (isFallback : Bool) : ModelRouter :=
  { r with
    models :=
      sortStable (fun a b => a.maxComplexity.value ≤ b.maxComplexity.value)
        (r.models ++ [⟨llm, name, maxComplexity, isFallback⟩]) }

/-- The scan of `_select_model`: return the first binding that can handle
the complexity and is not a fallback. -/
def scanModels (c : ComplexityLevel) : List ModelConfig → Option ModelConfig
  | [] => none
  | m :: ms =>
    if m.maxComplexity.value ≥ c.value ∧ m.isFallback = false then some m
    else scanModels c ms

/-- `ModelRouter._select_model`: raise if no models are configured; analyze
the question's complexity; return the first capable non-fallback binding,
or the last (most capable) binding if none qualifies. -/
def selectModel (models : List ModelConfig) (question : String) :
    Except String ModelConfig :=
  match models with
  | [] => Except.error "No models configured in router"
  | m0 :: rest =>
    let complexity := ComplexityAnalyzer.analyze question
    match scanModels complexity (m0 :: rest) with
    | some m => Except.ok m
    | none => Except.ok ((m0 :: rest).getLast (by simp))

/-- `ModelRouter._extract_question`: the content of the last user message,
or the empty string. -/
def extractQuestion (messages : List LLMMessage) : String :=
  match messages.reverse.find? (fun m => m.role = "user") with
  | some m => m.content
  | none => ""

/-- The ASCII single-quote character used in the Python error f-string
`f"Primary model '{name}' failed: {err}"`. -/
def sq : String := String.singleton (Char.ofNat 39)

/-- The metadata annotations applied to a successful fallback response:
`router_model`, `router_fallback_from` and `router_primary_error`. -/
def fallbackMeta (resp : LLMResponse) (fbName primaryName primaryErr : String) :
    Metadata :=
  dictSet (dictSet (dictSet resp.metadata
    "router_model" (MetaVal.str fbName))
    "router_fallback_from" (MetaVal.str primaryName))
    "router_primary_error" (MetaVal.str primaryErr)

/-- The fallback loop of `ModelRouter.generate`: try each fallback binding
in stored order; before each attempt record `"{primary}→{fallback}"` as the
last model used; on success annotate the response metadata; when all
fallbacks fail raise the fatal error embedding the primary failure. -/
def tryFallbacks (primaryName primaryErr : String) (msgs : List LLMMessage)
    (temp : ℚ) (maxTok : Option Nat) (lastUsed : Option String) :
    List ModelConfig → Option String × Except String LLMResponse
  | [] => (lastUsed, Except.error ("All models failed. Primary: " ++ primaryErr))
  | fb :: rest =>
    let lu := some (primaryName ++ "→" ++ fb.name)
    match fb.llm msgs temp maxTok with
    | Except.ok resp =>
      (lu, Except.ok
        { resp with metadata := fallbackMeta resp fb.name primaryName primaryErr })
    | Except.error _ =>
      tryFallbacks primaryName primaryErr msgs temp maxTok lu rest

/-- `ModelRouter.generate`: select the primary binding, record it as last
used, invoke it; on success annotate routing metadata; on failure either
propagate (fallback disabled) or run the fallback loop.  The pair returned
is (final `_last_model_used`, outcome). -/
def routerGenerate (r : ModelRouter) (msgs : List LLMMessage) (temp : ℚ)
    (maxTok : Option Nat) : Option String × Except String LLMResponse :=
  let question := extractQuestion msgs
  match selectModel r.models question with
  | Except.error e => (r.lastModelUsed, Except.error e)
  | Except.ok primary =>
    let lu := some primary.name
    match primary.llm msgs temp maxTok with
    | Except.ok resp =>
      let md := dictSet (dictSet resp.metadata
        "router_model" (MetaVal.str primary.name))
        "router_complexity" (MetaVal.str (ComplexityAnalyzer.analyze question).name)
      (lu, Except.ok { resp with metadata := md })
    | Except.error pe =>
      if r.enableFallback then
        tryFallbacks primary.name pe msgs temp maxTok lu
          (r.models.filter (fun m => m.isFallback))
      else
        (lu, Except.error
          ("Primary model " ++ sq ++ primary.name ++ sq ++ " failed: " ++ pe))

theorem scanModels_append_qualifying (c : ComplexityLevel)
    (pre : List ModelConfig) (m : ModelConfig) (post : List ModelConfig)
    (hpre : ∀ x ∈ pre,
      ¬(x.maxComplexity.value ≥ c.value ∧ x.isFallback = false))
    (hm : m.maxComplexity.value ≥ c.value) (hf : m.isFallback = false) :
    scanModels c (pre ++ m :: post) = some m := by
  induction pre with
  | nil => simp [scanModels, hm, hf]
  | cons x xs ih =>
    have hx := hpre x (by simp)
    simp only [List.cons_append, scanModels, if_neg hx]
    exact ih (fun y hy => hpre y (by simp [hy]))

theorem scanModels_eq_none (c : ComplexityLevel) (l : List ModelConfig)
    (h : ∀ x ∈ l,
      ¬(x.maxComplexity.value ≥ c.value ∧ x.isFallback = false)) :
    scanModels c l = none := by
  induction l with
  | nil => rfl
  | cons x xs ih =>
    simp only [scanModels, if_neg (h x (by simp))]
    exact ih (fun y hy => h y (by simp [hy]))

/-- A stub LLM handle used to instantiate concrete routing scenarios. -/
def stubLLM : LLMFun := fun _ _ _ => Except.error "model unavailable"

/-- A stub LLM handle that always succeeds with a fixed response. -/
def goodLLM : LLMFun := fun _ _ _ =>
  Except.ok { content := "42", metadata := [] }

/-- C5: `ModelRouter._select_model` computes the question's complexity tier,
keeps the bindings sorted ascending by max-complexity (done on insertion by
`add_model`), returns the first non-fallback binding whose max-complexity is
≥ the required tier, and falls back to the last (most capable) binding when
no such binding exists.  In the two-binding example {A: max=SIMPLE,
non-fallback}, {B: max=COMPLEX, fallback}, a SIMPLE question selects A and a
COMPLEX question selects B. -/
theorem model_router_select_model_rule :
    (∀ (r : ModelRouter) (llm : LLMFun) (n : String) (mc : ComplexityLevel)
        (fb : Bool),
      ((addModel r llm n mc fb).models).Pairwise
        (fun a b => a.maxComplexity.value ≤ b.maxComplexity.value)) ∧
    (∀ (models : List ModelConfig) (q : String) (pre : List ModelConfig)
        (m : ModelConfig) (post : List ModelConfig),
      models = pre ++ m :: post →
      (∀ x ∈ pre,
        ¬(x.maxComplexity.value ≥ (ComplexityAnalyzer.analyze q).value ∧
          x.isFallback = false)) →
      m.maxComplexity.value ≥ (ComplexityAnalyzer.analyze q).value →
      m.isFallback = false →
      selectModel models q = Except.ok m) ∧
    (∀ (models : List ModelConfig) (q : String) (h : models ≠ []),
      (∀ x ∈ models,
        ¬(x.maxComplexity.value ≥ (ComplexityAnalyzer.analyze q).value ∧
          x.isFallback = false)) →
      selectModel models q = Except.ok (models.getLast h)) ∧
    (∀ (llmA llmB : LLMFun) (q : String),
      (ComplexityAnalyzer.analyze q = ComplexityLevel.SIMPLE →
        selectModel
          ((addModel (addModel routerInit llmA "A" ComplexityLevel.SIMPLE
            false) llmB "B" ComplexityLevel.COMPLEX true).models) q =
          Except.ok ⟨llmA, "A", ComplexityLevel.SIMPLE, false⟩) ∧
      (ComplexityAnalyzer.analyze q = ComplexityLevel.COMPLEX →
        selectModel
          ((addModel (addModel routerInit llmA "A" ComplexityLevel.SIMPLE
            false) llmB "B" ComplexityLevel.COMPLEX true).models) q =
          Except.ok ⟨llmB, "B", ComplexityLevel.COMPLEX, true⟩)) := by
  refine ⟨?_, ?_, ?_, ?_⟩
  · intro r llm n mc fb
    have h := sortStable_pairwise
      (fun a b : ModelConfig =>
        decide (a.maxComplexity.value ≤ b.maxComplexity.value))
      (fun a b => by simp only [decide_eq_true_eq]; omega)
      (fun a b c => by simp only [decide_eq_true_eq]; omega)
      (r.models ++ [⟨llm, n, mc, fb⟩])
    simp only [addModel]
    exact h.imp (fun hab => by simpa using hab)
  · intro models q pre m post hsplit hpre hm hf
    subst hsplit
    cases pre with
    | nil =>
      simp [selectModel, scanModels, hm, hf]
    | cons x xs =>
      simp only [List.cons_append, selectModel]
      rw [show scanModels (ComplexityAnalyzer.analyze q)
        (x :: (xs ++ m :: post)) =
          scanModels (ComplexityAnalyzer.analyze q)
            ((x :: xs) ++ m :: post) from rfl]
      rw [scanModels_append_qualifying _ _ _ _ hpre hm hf]
  · intro models q h hall
    cases models with
    | nil => exact absurd rfl h
    | cons m0 rest =>
      simp only [selectModel]
      rw [scanModels_eq_none _ _ hall]
  · intro llmA llmB q
    constructor
    · intro hq
      simp [selectModel, addModel, routerInit, sortStable, insertStable,
        scanModels, ComplexityLevel.value, hq]
    · intro hq
      simp [selectModel, addModel, routerInit, sortStable, insertStable,
        scanModels, ComplexityLevel.value, hq, List.getLast]

/-- Witness for C5: in the concrete two-binding router, the SIMPLE question
"What is a derivative?" selects binding A and the COMPLEX question
"Prove why the chain rule works using the limit definition" selects B. -/
theorem model_router_select_model_rule_witness :
    selectModel
        ((addModel (addModel routerInit stubLLM "A" ComplexityLevel.SIMPLE
          false) goodLLM "B" ComplexityLevel.COMPLEX true).models)
        "What is a derivative?" =
      Except.ok ⟨stubLLM, "A", ComplexityLevel.SIMPLE, false⟩ ∧
    selectModel
        ((addModel (addModel routerInit stubLLM "A" ComplexityLevel.SIMPLE
          false) goodLLM "B" ComplexityLevel.COMPLEX true).models)
        "Prove why the chain rule works using the limit definition" =
      Except.ok ⟨goodLLM, "B", ComplexityLevel.COMPLEX, true⟩ :=
  ⟨(model_router_select_model_rule.2.2.2 stubLLM goodLLM
      "What is a derivative?").1 (by decide),
   (model_router_select_model_rule.2.2.2 stubLLM goodLLM
      "Prove why the chain rule works using the limit definition").2
      (by decide)⟩

theorem listStartsWith_append (sub l : List Char) :
    listStartsWith sub (sub ++ l) = true := by
  induction sub with
  | nil => rfl
  | cons c cs ih => simp [listStartsWith, ih]

theorem listContainsSub_of_startsWith (sub l : List Char)
    (h : listStartsWith sub l = true) : listContainsSub sub l = true := by
  cases l <;> simp [listContainsSub, h]

theorem listContainsSub_append_self (l1 sub l2 : List Char) :
    listContainsSub sub (l1 ++ (sub ++ l2)) = true := by
  induction l1 with
  | nil =>
    exact listContainsSub_of_startsWith _ _ (listStartsWith_append sub l2)
  | cons c cs ih => simp [listContainsSub, ih]

/-- Python substring containment on strings. -/
def containsStr (sub s : String) : Bool := listContainsSub sub.data s.data

theorem containsStr_append_right (a b : String) :
    containsStr b (a ++ b) = true := by
  have h := listContainsSub_append_self a.data b.data []
  simpa [containsStr, String.data_append] using h

theorem tryFallbacks_all_fail (pn pe : String) (msgs : List LLMMessage)
    (temp : ℚ) (mt : Option Nat) (fbs : List ModelConfig)
    (h : ∀ f ∈ fbs, ∃ e, f.llm msgs temp mt = Except.error e) :
    ∀ lu0, (tryFallbacks pn pe msgs temp mt lu0 fbs).2 =
      Except.error ("All models failed. Primary: " ++ pe) := by
  induction fbs with
  | nil => intro lu0; rfl
  | cons fb rest ih =>
    intro lu0
    obtain ⟨e, he⟩ := h fb (by simp)
    simp only [tryFallbacks, he]
    exact ih (fun f hf => h f (by simp [hf])) _

theorem tryFallbacks_first_success (pn pe : String) (msgs : List LLMMessage)
    (temp : ℚ) (mt : Option Nat) (pre : List ModelConfig) (fb : ModelConfig)
    (post : List ModelConfig) (resp : LLMResponse)
    (hpre : ∀ f ∈ pre, ∃ e, f.llm msgs temp mt = Except.error e)
    (hfb : fb.llm msgs temp mt = Except.ok resp) :
    ∀ lu0, tryFallbacks pn pe msgs temp mt lu0 (pre ++ fb :: post) =
      (some (pn ++ "→" ++ fb.name),
       Except.ok { resp with metadata := fallbackMeta resp fb.name pn pe }) := by
  induction pre with
  | nil => intro lu0; simp [tryFallbacks, hfb]
  | cons x xs ih =>
    intro lu0
    obtain ⟨e, he⟩ := hpre x (by simp)
    simp only [List.cons_append, tryFallbacks, he]
    exact ih (fun f hf => hpre f (by simp [hf])) _

/-- C6: when the selected primary model's generate call raises and fallback
is enabled, `ModelRouter.generate` tries the fallback-flagged bindings in
stored order one at a time; on the first success the last-model-used label
becomes `"{primary}→{fallback}"` and the response metadata carries
`router_model = fallback name` and `router_fallback_from = primary name`;
with fallback disabled, or with every fallback failing, an error embedding
the primary model's failure is raised. -/
theorem model_router_fallback_behaviour (r : ModelRouter)
    (msgs : List LLMMessage) (temp : ℚ) (mt : Option Nat)
    (primary : ModelConfig) (pe : String)
    (hsel : selectModel r.models (extractQuestion msgs) = Except.ok primary)
    (hfail : primary.llm msgs temp mt = Except.error pe) :
    (r.enableFallback = true →
      ∀ (pre : List ModelConfig) (fb : ModelConfig) (post : List ModelConfig),
        r.models.filter (fun m => m.isFallback) = pre ++ fb :: post →
        (∀ f ∈ pre, ∃ e, f.llm msgs temp mt = Except.error e) →
        ∀ resp, fb.llm msgs temp mt = Except.ok resp →
        ∃ resp',
          routerGenerate r msgs temp mt =
            (some (primary.name ++ "→" ++ fb.name), Except.ok resp') ∧
          resp'.content = resp.content ∧
          dictGet resp'.metadata "router_model" =
            some (MetaVal.str fb.name) ∧
          dictGet resp'.metadata "router_fallback_from" =
            some (MetaVal.str primary.name)) ∧
    (r.enableFallback = false →
      ∃ s, routerGenerate r msgs temp mt = (some primary.name, Except.error s) ∧
        containsStr pe s = true) ∧
    (r.enableFallback = true →
      (∀ f ∈ r.models.filter (fun m => m.isFallback),
        ∃ e, f.llm msgs temp mt = Except.error e) →
      ∃ s, (routerGenerate r msgs temp mt).2 = Except.error s ∧
        containsStr pe s = true) := by
  refine ⟨?_, ?_, ?_⟩
  · intro hen pre fb post hsplit hpre resp hok
    simp only [routerGenerate, hsel, hfail, hen, if_true]
    rw [hsplit, tryFallbacks_first_success _ _ _ _ _ _ _ _ _ hpre hok]
    exact ⟨_, rfl, rfl, by
      simp only [fallbackMeta]
      rw [dictGet_dictSet_ne _ _ _ _ (by decide),
        dictGet_dictSet_ne _ _ _ _ (by decide),
        dictGet_dictSet_self], by
      simp only [fallbackMeta]
      rw [dictGet_dictSet_ne _ _ _ _ (by decide), dictGet_dictSet_self]⟩
  · intro hen
    refine ⟨"Primary model " ++ sq ++ primary.name ++ sq ++ " failed: " ++ pe,
      ?_, ?_⟩
    · simp only [routerGenerate, hsel, hfail, hen, Bool.false_eq_true, if_false]
    · exact containsStr_append_right _ pe
  · intro hen hall
    refine ⟨"All models failed. Primary: " ++ pe, ?_, ?_⟩
    · simp only [routerGenerate, hsel, hfail, hen, if_true]
      exact tryFallbacks_all_fail _ _ _ _ _ _ hall _
    · exact containsStr_append_right _ pe

/-- Binding A of the concrete fallback scenario: SIMPLE-capable, always
raising, not a fallback. -/
def cfgA : ModelConfig := ⟨stubLLM, "A", ComplexityLevel.SIMPLE, false⟩

/-- Binding B of the concrete fallback scenario: COMPLEX-capable, always
succeeding, registered as fallback. -/
def cfgB : ModelConfig := ⟨goodLLM, "B", ComplexityLevel.COMPLEX, true⟩

/-- Witness for C6: with primary A raising and fallback B succeeding, the
router's answer comes from B, the last-model-used label is `"A→B"`, and the
metadata records `router_model = "B"` and `router_fallback_from = "A"`. -/
theorem model_router_fallback_behaviour_witness :
    ∃ resp', routerGenerate ⟨[cfgA, cfgB], true, none⟩
        [⟨"user", "What is a derivative?"⟩] 1 none =
        (some ("A" ++ "→" ++ "B"), Except.ok resp') ∧
      resp'.content = "42" ∧
      dictGet resp'.metadata "router_model" = some (MetaVal.str "B") ∧
      dictGet resp'.metadata "router_fallback_from" =
        some (MetaVal.str "A") := by
  have h := (model_router_fallback_behaviour ⟨[cfgA, cfgB], true, none⟩
    [⟨"user", "What is a derivative?"⟩] 1 none cfgA "model unavailable"
    (by rfl) (by rfl)).1 rfl [] cfgB [] rfl (by simp)
    ⟨"42", []⟩ (by rfl)
  exact h

/-! ## PgVectorStore (src/calculus_rag/vectorstore/pgvector_store.py)

The PostgreSQL backend is an external collaborator: the semantic search
(`query`) and the database part of `fulltext_search` are abstract ranked
result providers, while the tokenization of `fulltext_search` and the whole
reciprocal-rank-fusion of `hybrid_search` are embedded from the source.
Scores are exact rationals. -/

/-- `QueryResult` (vectorstore/base.py): one ranked chunk. -/
structure QueryResult where
  id : String
  content : String
  metadata : Metadata
  score : ℚ
deriving DecidableEq, Repr

/-- The stop-word set of `fulltext_search`. -/
def ftStopwords : List String :=
  ["the", "and", "for", "are", "but", "not", "you", "all", "can", "was",
   "her", "have"]

/-- The ASCII apostrophe kept by the sanitizing regex `[^\w\s'-]`. -/
def apostropheChar : Char := Char.ofNat 39

/-- One character of `re.sub(r"[^\w\s'-]", ' ', query_text)`: word
characters (`\w`, here ASCII alphanumerics and underscore — the repository's
queries are ASCII), whitespace, apostrophes and hyphens survive, everything
else becomes a space. -/
def sanitizeChar (c : Char) : Char :=
  if c.isAlphanum ∨ c = '_' ∨ c.isWhitespace ∨ c = apostropheChar ∨ c = '-'
  then c else ' '

/-- Splitting a character list into maximal non-whitespace runs
(`str.split()`); the accumulator holds the current word reversed. -/
def wordsOfAux : List Char → List Char → List (List Char)
  | [], acc => if acc = [] then [] else [acc.reverse]
  | c :: cs, acc =>
    if c.isWhitespace then
      if acc = [] then wordsOfAux cs [] else acc.reverse :: wordsOfAux cs []
    else wordsOfAux cs (c :: acc)

/-- Python `s.split()` as a list of words. -/
def wordsOf (cs : List Char) : List (List Char) := wordsOfAux cs []

/-- The tokenization of `fulltext_search`: sanitize, lower-case, split, and
drop words of length ≤ 2 or in the stop-word set. -/
def ftQueryWords (queryText : String) : List (List Char) :=
  (wordsOf ((queryText.data.map sanitizeChar).map Char.toLower)).filter
    (fun w => w.length > 2 && !(ftStopwords.map String.data).contains w)

/-- `' | '.join(words)`: the tsquery string sent to the database. -/
def tsQuery (ws : List (List Char)) : String :=
  String.intercalate " | " (ws.map String.mk)

/-- `PgVectorStore.fulltext_search`: tokenise the query; with no usable
words return `[]` immediately (no database call); otherwise delegate to the
database with the OR-joined tsquery.  `ftDb` abstracts the SQL query
(including metadata filtering) as a ranked result provider. -/
def fulltextSearch (ftDb : String → Nat → List QueryResult)
    (queryText : String) (nResults : Nat) : List QueryResult :=
  let words := ftQueryWords queryText
  if words = [] then []
  else ftDb (tsQuery words) nResults

/-- The three insertion-ordered dictionaries built by the RRF loop of
`hybrid_search`: `scores`, `contents`, `metadatas`. -/
structure RrfState where
  scores : List (String × ℚ)
  contents : List (String × String)
  metadatas : List (String × Metadata)

/-- One enumerate-loop of `hybrid_search`: starting at the given 0-based
rank, add `weight * (1.0 / (rrf_k + rank + 1))` (with `rrf_k = 60`) to each
result's accumulated score and overwrite its content and metadata. -/
def rrfAdd (weight : ℚ) : Nat → List QueryResult → RrfState → RrfState
  | _, [], st => st
  | rank, r :: rs, st =>
    let rrfScore := weight * (1 / ((60 : ℚ) + rank + 1))
    rrfAdd weight (rank + 1) rs
      { scores := dictSet st.scores r.id
          ((dictGet st.scores r.id).getD 0 + rrfScore),
        contents := dictSet st.contents r.id r.content,
        metadatas := dictSet st.metadatas r.id r.metadata }

/-- The fusion step of `PgVectorStore.hybrid_search`: weight the semantic
list by `semantic_weight` and the full-text list by `1 - semantic_weight`,
sum reciprocal-rank scores per id, sort ids by fused score descending
(Python `sorted` is stable), and build the top `n_results` results from the
accumulated dictionaries. -/
def hybridFuse (semanticResults fulltextResults : List QueryResult)
    (nResults : Nat) (semanticWeight : ℚ) : List QueryResult :=
  let st1 := rrfAdd semanticWeight 0 semanticResults ⟨[], [], []⟩
  let fulltextWeight := 1 - semanticWeight
  let st2 := rrfAdd fulltextWeight 0 fulltextResults st1
  let sortedIds := sortStable
    (fun a b => (dictGet st2.scores b).getD 0 ≤ (dictGet st2.scores a).getD 0)
    (dictKeys st2.scores)
  (sortedIds.take nResults).map (fun i =>
    { id := i,
      content := (dictGet st2.contents i).getD "",
      metadata := (dictGet st2.metadatas i).getD [],
      score := (dictGet st2.scores i).getD 0 })

/-- `PgVectorStore.hybrid_search`: request `k = n_results * 3` candidates
from the semantic search (`semDb`, abstracting `self.query` at the already
computed query embedding) and from `fulltext_search`, then fuse.  -/
def hybridSearch (semDb : Nat → List QueryResult)
    (ftDb : String → Nat → List QueryResult) (queryText : String)
    (nResults : Nat) (semanticWeight : ℚ) : List QueryResult :=
  let k := nResults * 3
  let semanticResults := semDb k
  let fulltextResults := fulltextSearch ftDb queryText k
  hybridFuse semanticResults fulltextResults nResults semanticWeight

/-- The specification-side per-list RRF contribution of an id: the sum of
`weight / (60 + rank + 1)` over the 0-based ranks at which the id occurs in
the list (0 when absent). -/
def rrfContrib (weight : ℚ) (rs : List QueryResult) (i : String) : ℚ :=
  ((rs.enum.filter (fun p => p.2.id = i)).map
    (fun p => weight / ((60 : ℚ) + p.1 + 1))).sum

theorem dictHas_iff_mem_keys {α : Type} (m : List (String × α)) (k : String) :
    dictHas m k = true ↔ k ∈ dictKeys m := by
  unfold dictHas dictKeys
  rw [List.any_eq_true]
  constructor
  · rintro ⟨p, hp, he⟩
    simp only [decide_eq_true_eq] at he
    exact he ▸ List.mem_map_of_mem _ hp
  · intro hk
    obtain ⟨p, hp, he⟩ := List.mem_map.mp hk
    exact ⟨p, hp, by simp [he]⟩

theorem dictKeys_dictSet_of_has {α : Type} (m : List (String × α))
    (k : String) (v : α) (h : dictHas m k = true) :
    dictKeys (dictSet m k v) = dictKeys m := by
  unfold dictSet
  rw [if_pos h]
  unfold dictKeys
  rw [List.map_map]
  apply List.map_congr_left
  intro p _
  by_cases hp : p.1 = k <;> simp [hp]

theorem dictKeys_dictSet_of_not_has {α : Type} (m : List (String × α))
    (k : String) (v : α) (h : dictHas m k = false) :
    dictKeys (dictSet m k v) = dictKeys m ++ [k] := by
  unfold dictSet
  rw [if_neg (by simp [h])]
  unfold dictKeys
  simp

theorem mem_dictKeys_dictSet {α : Type} (m : List (String × α))
    (k : String) (v : α) (k' : String) :
    k' ∈ dictKeys (dictSet m k v) ↔ k' ∈ dictKeys m ∨ k' = k := by
  cases h : dictHas m k with
  | true =>
    rw [dictKeys_dictSet_of_has m k v h]
    constructor
    · exact Or.inl
    · rintro (hk | rfl)
      · exact hk
      · exact (dictHas_iff_mem_keys m k').mp h
  | false =>
    rw [dictKeys_dictSet_of_not_has m k v h]
    simp

theorem nodup_dictKeys_dictSet {α : Type} (m : List (String × α))
    (k : String) (v : α) (h : (dictKeys m).Nodup) :
    (dictKeys (dictSet m k v)).Nodup := by
  cases hh : dictHas m k with
  | true => rw [dictKeys_dictSet_of_has m k v hh]; exact h
  | false =>
    rw [dictKeys_dictSet_of_not_has m k v hh]
    simp only [List.nodup_append, List.nodup_cons, List.nodup_nil]
    refine ⟨h, by simp, ?_⟩
    intro a ha
    simp only [List.mem_singleton]
    rintro rfl
    exact absurd ((dictHas_iff_mem_keys m a).mpr ha) (by simp [hh])

/-- The accumulated fused score of an id after one RRF loop: previous score
plus the sum of the weighted reciprocal-rank contributions of the id's
occurrences in the processed list. -/
theorem rrfAdd_scores_getD (w : ℚ) (rs : List QueryResult) :
    ∀ (rank : Nat) (st : RrfState) (i : String),
      (dictGet (rrfAdd w rank rs st).scores i).getD 0 =
        (dictGet st.scores i).getD 0 +
        (((List.enumFrom rank rs).filter (fun p => p.2.id = i)).map
          (fun p => w * (1 / ((60 : ℚ) + p.1 + 1)))).sum := by
  induction rs with
  | nil => intro rank st i; simp [rrfAdd, List.enumFrom]
  | cons r rs ih =>
    intro rank st i
    rw [show rrfAdd w rank (r :: rs) st = rrfAdd w (rank + 1) rs
      { scores := dictSet st.scores r.id
          ((dictGet st.scores r.id).getD 0 + w * (1 / ((60 : ℚ) + rank + 1))),
        contents := dictSet st.contents r.id r.content,
        metadatas := dictSet st.metadatas r.id r.metadata } from rfl]
    rw [ih]
    by_cases hid : r.id = i
    · subst hid
      rw [dictGet_dictSet_self]
      simp only [List.enumFrom_cons, List.filter_cons]
      rw [if_pos (by simp)]
      simp only [List.map_cons, List.sum_cons, Option.getD_some]
      rw [add_assoc]
    · rw [dictGet_dictSet_ne _ _ _ _ (fun he => hid he.symm)]
      simp only [List.enumFrom_cons, List.filter_cons]
      rw [if_neg (by simpa using hid)]

theorem mem_scores_keys_rrfAdd (w : ℚ) (rs : List QueryResult) :
    ∀ (rank : Nat) (st : RrfState) (i : String),
      i ∈ dictKeys (rrfAdd w rank rs st).scores ↔
        i ∈ dictKeys st.scores ∨ i ∈ rs.map (fun r => r.id) := by
  induction rs with
  | nil => intro rank st i; simp [rrfAdd]
  | cons r rs ih =>
    intro rank st i
    rw [show rrfAdd w rank (r :: rs) st = rrfAdd w (rank + 1) rs
      { scores := dictSet st.scores r.id
          ((dictGet st.scores r.id).getD 0 + w * (1 / ((60 : ℚ) + rank + 1))),
        contents := dictSet st.contents r.id r.content,
        metadatas := dictSet st.metadatas r.id r.metadata } from rfl]
    rw [ih]
    simp only [mem_dictKeys_dictSet, List.map_cons, List.mem_cons]
    tauto

theorem nodup_scores_keys_rrfAdd (w : ℚ) (rs : List QueryResult) :
    ∀ (rank : Nat) (st : RrfState),
      (dictKeys st.scores).Nodup →
      (dictKeys (rrfAdd w rank rs st).scores).Nodup := by
  induction rs with
  | nil => intro rank st h; exact h
  | cons r rs ih =>
    intro rank st h
    exact ih _ _ (nodup_dictKeys_dictSet _ _ _ h)

/-- The contents dictionary of `rrfAdd` is a fold of per-id overwrites. -/
theorem rrfAdd_contents_eq_fold (w : ℚ) (rs : List QueryResult) :
    ∀ (rank : Nat) (st : RrfState),
      (rrfAdd w rank rs st).contents =
        rs.foldl (fun m r => dictSet m r.id r.content) st.contents := by
  induction rs with
  | nil => intro rank st; rfl
  | cons r rs ih => intro rank st; exact ih _ _

/-- The metadata dictionary of `rrfAdd` is a fold of per-id overwrites. -/
theorem rrfAdd_metadatas_eq_fold (w : ℚ) (rs : List QueryResult) :
    ∀ (rank : Nat) (st : RrfState),
      (rrfAdd w rank rs st).metadatas =
        rs.foldl (fun m r => dictSet m r.id r.metadata) st.metadatas := by
  induction rs with
  | nil => intro rank st; rfl
  | cons r rs ih => intro rank st; exact ih _ _

/-- Folding per-id overwrites leaves, for each id, the value of its last
occurrence in the list (or the previous value when absent). -/
theorem dictGet_foldSet {α : Type} (f : QueryResult → α)
    (rs : List QueryResult) :
    ∀ (m : List (String × α)) (i : String),
      dictGet (rs.foldl (fun m r => dictSet m r.id (f r)) m) i =
        (match (rs.filter (fun r => r.id = i)).getLast? with
         | some r => some (f r)
         | none => dictGet m i) := by
  induction rs with
  | nil => intro m i; rfl
  | cons r rs ih =>
    intro m i
    rw [List.foldl_cons, ih]
    by_cases hid : r.id = i
    · rw [List.filter_cons, if_pos (by simp [hid])]
      cases hrest : rs.filter (fun r => r.id = i) with
      | nil =>
        show dictGet (dictSet m r.id (f r)) i = some (f r)
        rw [← hid, dictGet_dictSet_self]
      | cons q qs =>
        rw [List.getLast?_cons_cons]
        cases hql : (q :: qs).getLast? with
        | none => exact absurd hql (by simp)
        | some t => rfl
    · rw [List.filter_cons, if_neg (by simpa using hid)]
      cases hrest : rs.filter (fun r => r.id = i) with
      | nil =>
        show dictGet (dictSet m r.id (f r)) i = dictGet m i
        exact dictGet_dictSet_ne _ _ _ _ (fun he => hid he.symm)
      | cons q qs =>
        cases hql : (q :: qs).getLast? with
        | none => exact absurd hql (by simp)
        | some t => rfl

/-- The RRF dictionaries after both loops of `hybrid_search`. -/
def fusedState (sem ft : List QueryResult) (w : ℚ) : RrfState :=
  rrfAdd (1 - w) 0 ft (rrfAdd w 0 sem ⟨[], [], []⟩)

/-- The fused score of an id (0 for unseen ids). -/
def fusedScore (sem ft : List QueryResult) (w : ℚ) (i : String) : ℚ :=
  (dictGet (fusedState sem ft w).scores i).getD 0

theorem hybridFuse_unfolded (sem ft : List QueryResult) (n : Nat) (w : ℚ) :
    hybridFuse sem ft n w =
      ((sortStable (fun a b => fusedScore sem ft w b ≤ fusedScore sem ft w a)
        (dictKeys (fusedState sem ft w).scores)).take n).map (fun i =>
        { id := i,
          content := (dictGet (fusedState sem ft w).contents i).getD "",
          metadata := (dictGet (fusedState sem ft w).metadatas i).getD [],
          score := fusedScore sem ft w i }) := rfl

theorem fusedScore_eq_contribs (sem ft : List QueryResult) (w : ℚ)
    (i : String) :
    fusedScore sem ft w i = rrfContrib w sem i + rrfContrib (1 - w) ft i := by
  unfold fusedScore fusedState rrfContrib
  rw [rrfAdd_scores_getD, rrfAdd_scores_getD]
  simp [List.enum, dictGet, div_eq_mul_inv, one_div]

theorem mem_fusedState_keys (sem ft : List QueryResult) (w : ℚ) (i : String) :
    i ∈ dictKeys (fusedState sem ft w).scores ↔
      i ∈ (sem ++ ft).map (fun r => r.id) := by
  unfold fusedState
  rw [mem_scores_keys_rrfAdd, mem_scores_keys_rrfAdd]
  simp only [dictKeys, List.map_nil, List.map_append, List.mem_append]
  simp [or_comm]

theorem nodup_fusedState_keys (sem ft : List QueryResult) (w : ℚ) :
    (dictKeys (fusedState sem ft w).scores).Nodup := by
  unfold fusedState
  exact nodup_scores_keys_rrfAdd _ _ _ _
    (nodup_scores_keys_rrfAdd _ _ _ _ (by simp [dictKeys]))

/-- The content dictionary of the fused state holds, for each id, the
content of the id's last occurrence across semantic-then-fulltext order. -/
theorem fusedState_contents (sem ft : List QueryResult) (w : ℚ) (i : String) :
    dictGet (fusedState sem ft w).contents i =
      (match ((sem ++ ft).filter (fun r => r.id = i)).getLast? with
       | some r => some r.content
       | none => none) := by
  unfold fusedState
  rw [rrfAdd_contents_eq_fold, rrfAdd_contents_eq_fold, ← List.foldl_append,
    dictGet_foldSet]
  cases ((sem ++ ft).filter (fun r => r.id = i)).getLast? with
  | none => rfl
  | some t => rfl

/-- Metadata analogue of `fusedState_contents`. -/
theorem fusedState_metadatas (sem ft : List QueryResult) (w : ℚ)
    (i : String) :
    dictGet (fusedState sem ft w).metadatas i =
      (match ((sem ++ ft).filter (fun r => r.id = i)).getLast? with
       | some r => some r.metadata
       | none => none) := by
  unfold fusedState
  rw [rrfAdd_metadatas_eq_fold, rrfAdd_metadatas_eq_fold, ← List.foldl_append,
    dictGet_foldSet]
  cases ((sem ++ ft).filter (fun r => r.id = i)).getLast? with
  | none => rfl
  | some t => rfl

/-- C1: `PgVectorStore.hybrid_search` requests `3 × n_results` candidates
from each of the semantic and full-text searches; each returned item's score
is the sum over the two lists of `weight / (60 + rank + 1)` at the 0-based
ranks where its id occurs (`semantic_weight` for the semantic list,
`1 − semantic_weight` for the full-text list, 0 from a list not containing
the id); the output is sorted descending by fused score, truncated to
`n_results` (every omitted candidate scores no higher than every returned
one), and each returned item carries the content and metadata of the id's
last occurrence across the semantic-then-full-text lists. -/
theorem hybrid_search_rrf_fusion :
    (∀ (semDb : Nat → List QueryResult)
        (ftDb : String → Nat → List QueryResult) (q : String) (n : Nat)
        (w : ℚ),
      hybridSearch semDb ftDb q n w =
        hybridFuse (semDb (n * 3)) (fulltextSearch ftDb q (n * 3)) n w) ∧
    (∀ (sem ft : List QueryResult) (n : Nat) (w : ℚ),
      (∀ r ∈ hybridFuse sem ft n w,
        r.score = rrfContrib w sem r.id + rrfContrib (1 - w) ft r.id) ∧
      (hybridFuse sem ft n w).Pairwise (fun a b => b.score ≤ a.score) ∧
      (hybridFuse sem ft n w).length =
        min n ((sem ++ ft).map (fun r => r.id)).dedup.length ∧
      (∀ r ∈ hybridFuse sem ft n w, ∃ src,
        ((sem ++ ft).filter (fun t => t.id = r.id)).getLast? = some src ∧
        r.content = src.content ∧ r.metadata = src.metadata ∧
        r.id = src.id) ∧
      (∀ i' ∈ (sem ++ ft).map (fun r => r.id),
        (∀ r ∈ hybridFuse sem ft n w, r.id ≠ i') →
        ∀ r ∈ hybridFuse sem ft n w,
          rrfContrib w sem i' + rrfContrib (1 - w) ft i' ≤ r.score)) := by
  refine ⟨fun semDb ftDb q n w => rfl, fun sem ft n w => ?_⟩
  have hpair := sortStable_pairwise
    (fun a b => decide (fusedScore sem ft w b ≤ fusedScore sem ft w a))
    (fun a b => by
      simp only [decide_eq_true_eq]
      exact le_total _ _)
    (fun a b c => by
      simp only [decide_eq_true_eq]
      exact fun h1 h2 => le_trans h2 h1)
    (dictKeys (fusedState sem ft w).scores)
  refine ⟨?_, ?_, ?_, ?_, ?_⟩
  · intro r hr
    rw [hybridFuse_unfolded] at hr
    obtain ⟨i, hi, rfl⟩ := List.mem_map.mp hr
    exact fusedScore_eq_contribs sem ft w i
  · rw [hybridFuse_unfolded]
    refine List.Pairwise.map _ (fun a b h => ?_)
      (hpair.sublist (List.take_sublist n _))
    simpa using h
  · rw [hybridFuse_unfolded]
    rw [List.length_map, List.length_take,
      (sortStable_perm _ _).length_eq]
    have hnd := nodup_fusedState_keys sem ft w
    have hset : (dictKeys (fusedState sem ft w).scores).toFinset =
        ((sem ++ ft).map (fun r => r.id)).toFinset := by
      ext x
      simp only [List.mem_toFinset]
      exact mem_fusedState_keys sem ft w x
    have hlen : (dictKeys (fusedState sem ft w).scores).length =
        ((sem ++ ft).map (fun r => r.id)).dedup.length := by
      rw [← List.Nodup.dedup hnd, ← List.card_toFinset, hset,
        List.card_toFinset]
    rw [hlen]
  · intro r hr
    rw [hybridFuse_unfolded] at hr
    obtain ⟨i, hi, rfl⟩ := List.mem_map.mp hr
    have hik : i ∈ dictKeys (fusedState sem ft w).scores :=
      (sortStable_perm _ _).mem_iff.mp (List.take_subset n _ hi)
    have hid : i ∈ (sem ++ ft).map (fun r => r.id) :=
      (mem_fusedState_keys sem ft w i).mp hik
    obtain ⟨t, ht, hti⟩ := List.mem_map.mp hid
    have hne : (sem ++ ft).filter (fun t => t.id = i) ≠ [] := by
      intro hnil
      have : t ∈ (sem ++ ft).filter (fun t => t.id = i) :=
        List.mem_filter.mpr ⟨ht, by simp [hti]⟩
      rw [hnil] at this
      exact absurd this (List.not_mem_nil t)
    obtain ⟨src, hsrc⟩ :=
      Option.isSome_iff_exists.mp (List.getLast?_isSome.mpr hne)
    refine ⟨src, hsrc, ?_, ?_, ?_⟩
    · show (dictGet (fusedState sem ft w).contents i).getD "" = src.content
      rw [fusedState_contents, hsrc]
      rfl
    · show (dictGet (fusedState sem ft w).metadatas i).getD [] = src.metadata
      rw [fusedState_metadatas, hsrc]
      rfl
    · have hmem := List.mem_of_mem_getLast? hsrc
      have := (List.mem_filter.mp hmem).2
      simp only [decide_eq_true_eq] at this
      exact this.symm
  · intro i' hi' hout r hr
    rw [hybridFuse_unfolded] at hr
    obtain ⟨a, ha, rfl⟩ := List.mem_map.mp hr
    have hik : i' ∈ dictKeys (fusedState sem ft w).scores :=
      (mem_fusedState_keys sem ft w i').mpr hi'
    have hsorted : i' ∈ sortStable
        (fun a b => fusedScore sem ft w b ≤ fusedScore sem ft w a)
        (dictKeys (fusedState sem ft w).scores) :=
      (sortStable_perm _ _).mem_iff.mpr hik
    have hnotTake : i' ∉ (sortStable
        (fun a b => fusedScore sem ft w b ≤ fusedScore sem ft w a)
        (dictKeys (fusedState sem ft w).scores)).take n := by
      intro htake
      have hmem : ∃ rr ∈ hybridFuse sem ft n w, rr.id = i' := by
        rw [hybridFuse_unfolded]
        exact ⟨_, List.mem_map_of_mem _ htake, rfl⟩
      obtain ⟨rr, hrr, hrid⟩ := hmem
      exact hout rr hrr hrid
    have hdrop : i' ∈ (sortStable
        (fun a b => fusedScore sem ft w b ≤ fusedScore sem ft w a)
        (dictKeys (fusedState sem ft w).scores)).drop n := by
      have hsorted' := hsorted
      rw [← List.take_append_drop n (sortStable
        (fun a b => fusedScore sem ft w b ≤ fusedScore sem ft w a)
        (dictKeys (fusedState sem ft w).scores))] at hsorted'
      rcases List.mem_append.mp hsorted' with h | h
      · exact absurd h hnotTake
      · exact h
    have hpair' := hpair
    rw [← List.take_append_drop n (sortStable
        (fun a b => fusedScore sem ft w b ≤ fusedScore sem ft w a)
        (dictKeys (fusedState sem ft w).scores))] at hpair'
    have hrel := (List.pairwise_append.mp hpair').2.2 a ha i' hdrop
    simp only [decide_eq_true_eq] at hrel
    show rrfContrib w sem i' + rrfContrib (1 - w) ft i' ≤
      fusedScore sem ft w a
    rw [← fusedScore_eq_contribs]
    exact hrel

/-- A concrete semantic result used to instantiate the fusion theorems. -/
def qra : QueryResult := ⟨"a", "alpha content", [], 9/10⟩

/-- Witness for C1: on the concrete one-element semantic list, every fused
score equals the claimed reciprocal-rank sum and the output has exactly one
item. -/
theorem hybrid_search_rrf_fusion_witness :
    (hybridFuse [qra] [] 1 (7/10)).map (fun r => r.score) =
      (hybridFuse [qra] [] 1 (7/10)).map (fun r =>
        rrfContrib (7/10) [qra] r.id + rrfContrib (1 - 7/10) [] r.id) ∧
    (hybridFuse [qra] [] 1 (7/10)).length = 1 := by
  constructor
  · exact List.map_congr_left (fun r hr =>
      (hybrid_search_rrf_fusion.2 [qra] [] 1 (7/10)).1 r hr)
  · rw [(hybrid_search_rrf_fusion.2 [qra] [] 1 (7/10)).2.2.1]
    decide

theorem filter_enumFrom_eq_nil (rs : List QueryResult) (x : String)
    (h : x ∉ rs.map (fun r => r.id)) :
    ∀ k, (List.enumFrom k rs).filter (fun p => p.2.id = x) = [] := by
  induction rs with
  | nil => intro k; rfl
  | cons r rs ih =>
    intro k
    simp only [List.map_cons, List.mem_cons, not_or] at h
    rw [List.enumFrom_cons, List.filter_cons,
      if_neg (by simpa using fun he => h.1 he.symm)]
    exact ih (by simpa using h.2) _

theorem filter_id_eq_nil (rs : List QueryResult) (x : String)
    (h : x ∉ rs.map (fun r => r.id)) :
    rs.filter (fun t => t.id = x) = [] := by
  induction rs with
  | nil => rfl
  | cons r rs ih =>
    simp only [List.map_cons, List.mem_cons, not_or] at h
    rw [List.filter_cons, if_neg (by simpa using fun he => h.1 he.symm)]
    exact ih (by simpa using h.2)

theorem filter_enumFrom_nodup (rs : List QueryResult)
    (hnd : (rs.map (fun r => r.id)).Nodup) :
    ∀ (i : Nat) (hi : i < rs.length) (k : Nat),
      (List.enumFrom k rs).filter (fun p => p.2.id = rs[i].id) =
        [(k + i, rs[i])] := by
  induction rs with
  | nil => intro i hi k; exact absurd hi (by simp)
  | cons r rs ih =>
    intro i hi k
    simp only [List.map_cons, List.nodup_cons] at hnd
    cases i with
    | zero =>
      simp only [List.getElem_cons_zero]
      rw [List.enumFrom_cons, List.filter_cons, if_pos (by simp)]
      rw [filter_enumFrom_eq_nil rs r.id hnd.1]
      simp
    | succ j =>
      have hj : j < rs.length := by
        simp only [List.length_cons] at hi
        omega
      simp only [List.getElem_cons_succ]
      rw [List.enumFrom_cons, List.filter_cons, if_neg (by
        simp only [decide_eq_true_eq]
        intro he
        exact hnd.1 (he ▸ List.mem_map_of_mem _ (rs.getElem_mem hj)))]
      rw [ih hnd.2 j hj (k + 1)]
      have harith : k + 1 + j = k + (j + 1) := by omega
      rw [harith]

theorem filter_id_nodup (rs : List QueryResult)
    (hnd : (rs.map (fun r => r.id)).Nodup) :
    ∀ (i : Nat) (hi : i < rs.length),
      rs.filter (fun t => t.id = rs[i].id) = [rs[i]] := by
  induction rs with
  | nil => intro i hi; exact absurd hi (by simp)
  | cons r rs ih =>
    intro i hi
    simp only [List.map_cons, List.nodup_cons] at hnd
    cases i with
    | zero =>
      simp only [List.getElem_cons_zero]
      rw [List.filter_cons, if_pos (by simp)]
      rw [filter_id_eq_nil rs r.id hnd.1]
    | succ j =>
      have hj : j < rs.length := by
        simp only [List.length_cons] at hi
        omega
      simp only [List.getElem_cons_succ]
      rw [List.filter_cons, if_neg (by
        simp only [decide_eq_true_eq]
        intro he
        exact hnd.1 (he ▸ List.mem_map_of_mem _ (rs.getElem_mem hj)))]
      exact ih hnd.2 j hj

theorem rrfAdd_keys_fresh (w : ℚ) (rs : List QueryResult)
    (hnd : (rs.map (fun r => r.id)).Nodup) :
    ∀ (rank : Nat) (st : RrfState),
      (∀ r ∈ rs, dictHas st.scores r.id = false) →
      dictKeys (rrfAdd w rank rs st).scores =
        dictKeys st.scores ++ rs.map (fun r => r.id) := by
  induction rs with
  | nil => intro rank st _; simp [rrfAdd]
  | cons r rs ih =>
    intro rank st hfresh
    simp only [List.map_cons, List.nodup_cons] at hnd
    rw [show rrfAdd w rank (r :: rs) st = rrfAdd w (rank + 1) rs
      { scores := dictSet st.scores r.id
          ((dictGet st.scores r.id).getD 0 + w * (1 / ((60 : ℚ) + rank + 1))),
        contents := dictSet st.contents r.id r.content,
        metadatas := dictSet st.metadatas r.id r.metadata } from rfl]
    rw [ih hnd.2 _ _ (by
      intro q hq
      have hne : q.id ≠ r.id := by
        intro he
        exact hnd.1 (he ▸ List.mem_map_of_mem _ hq)
      have : q.id ∉ dictKeys (dictSet st.scores r.id
          ((dictGet st.scores r.id).getD 0 +
            w * (1 / ((60 : ℚ) + rank + 1)))) := by
        rw [mem_dictKeys_dictSet]
        rintro (hk | hk)
        · exact absurd ((dictHas_iff_mem_keys _ _).mpr hk)
            (by simp [hfresh q (by simp [hq])])
        · exact hne hk
      cases hh : dictHas (dictSet st.scores r.id
          ((dictGet st.scores r.id).getD 0 +
            w * (1 / ((60 : ℚ) + rank + 1)))) q.id with
      | false => rfl
      | true => exact absurd ((dictHas_iff_mem_keys _ _).mp hh) this)]
    rw [dictKeys_dictSet_of_not_has _ _ _ (hfresh r (by simp))]
    simp

/-- C10: if the keyword search returns no results (in particular whenever
every query word is a stop word or too short, in which case
`fulltext_search` returns `[]` before any database call), `hybrid_search`
neither fails nor throws: its output is exactly the semantic list in its own
order, scored `semantic_weight * 1/(60 + rank + 1)`, truncated to
`n_results`. -/
theorem hybrid_search_empty_keyword_degrades :
    (∀ (ftDb : String → Nat → List QueryResult) (q : String) (n : Nat),
      ftQueryWords q = [] → fulltextSearch ftDb q n = []) ∧
    (∀ (sem : List QueryResult) (n : Nat) (w : ℚ),
      (sem.map (fun r => r.id)).Nodup → 0 ≤ w →
      hybridFuse sem [] n w =
        (sem.enum.map (fun p =>
          (⟨p.2.id, p.2.content, p.2.metadata,
            w * (1 / ((60 : ℚ) + p.1 + 1))⟩ : QueryResult))).take n) := by
  refine ⟨fun ftDb q n hq => by simp [fulltextSearch, hq],
    fun sem n w hnd hw => ?_⟩
  have hkeys : dictKeys (fusedState sem [] w).scores =
      sem.map (fun r => r.id) := by
    unfold fusedState
    rw [show rrfAdd (1 - w) 0 [] (rrfAdd w 0 sem ⟨[], [], []⟩) =
      rrfAdd w 0 sem ⟨[], [], []⟩ from rfl]
    rw [rrfAdd_keys_fresh w sem hnd 0 _ (by intro r _; rfl)]
    simp [dictKeys]
  have hscore : ∀ (i : Nat) (hi : i < sem.length),
      fusedScore sem [] w (sem[i].id) = w * (1 / ((60 : ℚ) + i + 1)) := by
    intro i hi
    rw [fusedScore_eq_contribs]
    unfold rrfContrib
    rw [show List.enum sem = List.enumFrom 0 sem from rfl,
      filter_enumFrom_nodup sem hnd i hi 0]
    simp [div_eq_mul_inv, one_div]
  have hcontent : ∀ (i : Nat) (hi : i < sem.length),
      dictGet (fusedState sem [] w).contents (sem[i].id) =
        some (sem[i].content) := by
    intro i hi
    rw [fusedState_contents]
    rw [List.append_nil, filter_id_nodup sem hnd i hi]
    rfl
  have hmeta : ∀ (i : Nat) (hi : i < sem.length),
      dictGet (fusedState sem [] w).metadatas (sem[i].id) =
        some (sem[i].metadata) := by
    intro i hi
    rw [fusedState_metadatas]
    rw [List.append_nil, filter_id_nodup sem hnd i hi]
    rfl
  have hpw : (dictKeys (fusedState sem [] w).scores).Pairwise
      (fun a b =>
        decide (fusedScore sem [] w b ≤ fusedScore sem [] w a) = true) := by
    rw [hkeys, List.pairwise_iff_getElem]
    intro i j hi hj hij
    have hi' : i < sem.length := by simpa using hi
    have hj' : j < sem.length := by simpa using hj
    simp only [List.getElem_map, decide_eq_true_eq]
    rw [hscore i hi', hscore j hj']
    apply mul_le_mul_of_nonneg_left _ hw
    apply one_div_le_one_div_of_le
    · positivity
    · have : (i : ℚ) ≤ (j : ℚ) := by exact_mod_cast hij.le
      linarith
  rw [hybridFuse_unfolded, sortStable_eq_self _ _ hpw, hkeys]
  apply List.ext_getElem
  · simp [List.length_take, List.length_map, List.enum_length]
  · intro i h1 h2
    have hi' : i < sem.length := by
      simp only [List.length_take, List.length_map] at h1
      omega
    simp only [List.getElem_map, List.getElem_take, List.getElem_enum]
    have h1' := hscore i hi'
    have h2' := hcontent i hi'
    have h3' := hmeta i hi'
    simp only [QueryResult.mk.injEq]
    exact ⟨trivial, by rw [h2']; rfl, by rw [h3']; rfl, h1'⟩

/-- Witness for C10: the query "the and for" consists only of stop words, so
keyword search returns nothing, and fusing a one-element semantic list with
the empty keyword list yields the pure weighted semantic ranking. -/
theorem hybrid_search_empty_keyword_degrades_witness :
    fulltextSearch (fun _ _ => [qra]) "the and for" 5 = [] ∧
    hybridFuse [qra] [] 1 (7/10) =
      ([qra].enum.map (fun p => (⟨p.2.id, p.2.content, p.2.metadata,
        (7/10) * (1 / ((60 : ℚ) + p.1 + 1))⟩ : QueryResult))).take 1 :=
  ⟨hybrid_search_empty_keyword_degrades.1 _ "the and for" 5 (by decide),
   hybrid_search_empty_keyword_degrades.2 [qra] 1 (7/10) (by decide)
     (by norm_num)⟩

/-! ## PrerequisiteGraph (src/calculus_rag/prerequisites/graph.py)

`self._graph` is a Python dict from topic to its ordered prerequisite list;
it is modelled as an insertion-ordered association list. -/

/-- The `_graph` mapping of `PrerequisiteGraph`. -/
abbrev Graph := List (String × List String)

/-- `PrerequisiteGraph.get_prerequisites`: direct prerequisites, `[]` for an
unknown topic. -/
def getPrerequisites (g : Graph) (topic : String) : List String :=
  (dictGet g topic).getD []

/-- `PrerequisiteGraph.get_dependents`: the topics listing `topic` as a
direct prerequisite, in graph insertion order. -/
def getDependents (g : Graph) (topic : String) : List String :=
  (g.filter (fun p => topic ∈ p.2)).map (fun p => p.1)

/-- The edge relation of the graph: `stepRel g u t` when `u` is a direct
prerequisite of `t` (so `u` sits below `t` in the dependency order). -/
def stepRel (g : Graph) (u t : String) : Prop := u ∈ getPrerequisites g t

/-- Acyclicity as well-foundedness: every node is accessible along
prerequisite edges. -/
def Acyclic (g : Graph) : Prop := ∀ t, Acc (stepRel g) t

/-- A cycle: some node reaches itself along one or more prerequisite
edges. -/
def HasCycle (g : Graph) : Prop :=
  ∃ t, Relation.TransGen (stepRel g) t t

/-- All node names mentioned by the graph (keys and prerequisites); used
only to size the DFS fuel. -/
def graphUniverse (g : Graph) : List String :=
  dictKeys g ++ (g.map (fun p => p.2)).flatten

/-- One `has_cycle(topic)` call of the depth-first search in
`PrerequisiteGraph._would_create_cycle`: mark the node visited and on the
recursion stack, loop over its prerequisites (recursing into unvisited
ones, reporting a cycle on a recursion-stack hit), then drop the node from
the stack on exit.  The visited set is threaded through the returned pair;
the early `return True` is modelled by the short-circuiting flag.  The fuel
only bounds the recursion depth, which is at most the number of distinct
nodes, since every nested call starts from a strictly larger visited set;
exhaustion (unreachable with the fuel used below) conservatively reports a
cycle. -/
def dfsNode (g : Graph) : Nat → String → List String → List String →
    Bool × List String
  | 0, _, visited, _ => (true, visited)
  | fuel + 1, t, visited, recStack =>
    (getPrerequisites g t).foldl
      (fun (st : Bool × List String) p =>
        if st.1 then st
        else if p ∉ st.2 then dfsNode g fuel p st.2 (t :: recStack)
        else if p ∈ t :: recStack then (true, st.2)
        else st)
      (false, t :: visited)

/-- `PrerequisiteGraph._would_create_cycle`: run the DFS from every not-yet
visited key of the trial graph (the current graph with the proposed entry
set). -/
def wouldCreateCycle (g : Graph) (newTopic : String)
    (newPrereqs : List String) : Bool :=
  let temp := dictSet g newTopic newPrereqs
  let fuel := (graphUniverse temp).length + 1
  ((dictKeys temp).foldl
    (fun (st : Bool × List String) t =>
      if st.1 then st
      else if t ∉ st.2 then dfsNode temp fuel t st.2 []
      else st)
    (false, [])).1

/-- The typed error of `add_topic` (`CircularDependencyError`). -/
inductive GraphErr where
  | circularDependency : String → GraphErr
deriving DecidableEq, Repr

/-- `PrerequisiteGraph.add_topic` as a state transition: check the trial
graph for cycles before mutating; on rejection raise and leave the mapping
untouched; on success set (overwriting) the topic's prerequisite list. -/
def addTopic (g : Graph) (topic : String) (prerequisites : List String) :
    Graph × Option GraphErr :=
  if wouldCreateCycle g topic prerequisites then
    (g, some (GraphErr.circularDependency
      ("Adding " ++ topic ++ " would create a cycle")))
  else
    (dictSet g topic prerequisites, none)

/-- The graphs reachable from the empty graph through successful `add_topic`
calls. -/
inductive Built : Graph → Prop where
  | nil : Built []
  | step {g : Graph} (topic : String) (prerequisites : List String) :
      Built g → (addTopic g topic prerequisites).2 = none →
      Built (addTopic g topic prerequisites).1

/-- `in_degree[topic]` after the (second, effective) initialisation loop of
`topological_sort`: the number of direct prerequisites, with multiplicity. -/
def initialDegree (g : Graph) (t : String) : Int :=
  ((getPrerequisites g t).length : Int)

/-- The dependent-decrement loop body of `topological_sort`: decrement each
dependent's in-degree and enqueue it when the count reaches zero. -/
def processDeps : List String → (String → Int) → List String →
    (String → Int) × List String
  | [], deg, queue => (deg, queue)
  | d :: ds, deg, queue =>
    let deg' := fun k => if k = d then deg k - 1 else deg k
    let queue' := if deg' d = 0 then queue ++ [d] else queue
    processDeps ds deg' queue'

/-- The while-loop of `topological_sort` (Kahn's algorithm), with a fuel
that bounds the number of pops: every processed element is popped once, and
at most `|keys| + Σ in_degree` elements are ever enqueued, so the fuel used
by `topologicalSort` below cannot run out. -/
def kahnLoopF (g : Graph) : Nat → (String → Int) → List String →
    List String → List String
  | 0, _, _, result => result
  | fuel + 1, deg, queue, result =>
    match queue with
    | [] => result
    | t :: rest =>
      let step := processDeps (getDependents g t) deg rest
      kahnLoopF g fuel step.1 step.2 (result ++ [t])

/-- `PrerequisiteGraph.topological_sort`: in-degrees from prerequisite
counts, a queue seeded with the zero-in-degree topics in insertion order,
then Kahn's loop.  (The first in-degree computation in the source is dead
code, immediately overwritten by the recalculation; only the effective one
is modelled.) -/
def topologicalSort (g : Graph) : List String :=
  let deg := initialDegree g
  let queue := (dictKeys g).filter (fun t => deg t = 0)
  let fuel := (dictKeys g).length +
    ((dictKeys g).map (fun k => (deg k).toNat)).sum + 1
  kahnLoopF g fuel deg queue []

/-! ## Retriever and PrerequisiteAwareRetriever
(src/calculus_rag/retrieval/retriever.py,
 src/calculus_rag/retrieval/prerequisite_aware_retriever.py)

External collaborators (embedder, vector store queries, the GapDetector's
keyword matching, the static topic catalog, and `cleanup_math_text`) are
abstracted as function parameters; scores, thresholds and the control flow
are embedded from the source. -/

/-- A raised Python exception. -/
inductive PyErr where
  | typeError : String → PyErr
  | valueError : String → PyErr
deriving DecidableEq, Repr

/-- `RetrievalResult` (retrieval/retriever.py). -/
structure RetrievalResult where
  content : String
  score : ℚ
  metadata : Metadata
  chunk_id : String
deriving DecidableEq, Repr

/-- `Retriever.retrieve` (retrieval/retriever.py lines 64-108): its only
parameters are `query`, `n_results` and `filters` — it accepts no
`min_score` argument.  It raises ValueError on an empty or whitespace-only
query, embeds the query and searches the store (both folded into
`querySearch`), and converts the hits. -/
def retrieverRetrieve
    (querySearch : String → Nat → Option (List (String × String)) →
      List QueryResult)
    (query : String) (nResults : Nat)
    (filters : Option (List (String × String))) :
    Except PyErr (List RetrievalResult) :=
  if query.data.all (fun c => c.isWhitespace) then
    Except.error (PyErr.valueError "Query cannot be empty")
  else
    Except.ok ((querySearch query nResults filters).map (fun r =>
      { content := r.content, score := r.score, metadata := r.metadata,
        chunk_id := r.id }))

/-- The minimum-relevance threshold of
`PrerequisiteAwareRetriever.retrieve` (`min_score = 0.45`; the float
literal is modelled by the exact decimal — every comparison in the claims
is far from the rounding error). -/
def paMinScore : ℚ := 45/100

/-- The default `prerequisite_weight` of
`PrerequisiteAwareRetriever.__init__`. -/
def prerequisiteWeightDefault : ℚ := 7/10

/-- The default `max_prerequisite_depth` of
`PrerequisiteAwareRetriever.__init__`. -/
def maxPrerequisiteDepthDefault : Nat := 2

/-- Python `set.add` modelled on an insertion-ordered list (the claims do
not depend on Python's unspecified set iteration order). -/
def setAdd (l : List String) (x : String) : List String :=
  if x ∈ l then l else l ++ [x]

/-- `PrerequisiteAwareRetriever._get_limited_prerequisites`: direct
prerequisites at depth 1; at greater depths, the set of direct
prerequisites united with each one's recursive prerequisites. -/
def getLimitedPrerequisites (g : Graph) : Nat → String → List String
  | 0, _ => []
  | 1, topic => getPrerequisites g topic
  | d + 2, topic =>
    let direct := getPrerequisites g topic
    direct.foldl
      (fun acc p => (getLimitedPrerequisites g (d + 1) p).foldl setAdd acc)
      (direct.foldl setAdd [])

/-- The down-weighting and tagging applied to each prerequisite result in
`PrerequisiteAwareRetriever.retrieve` step 3: multiply the score by
`prerequisite_weight` and set `is_prerequisite = True` and
`prerequisite_for = detected topic`. -/
def tagPrereqResult (weight : ℚ) (mainTopic : String) (r : RetrievalResult) :
    RetrievalResult :=
  { r with
    score := r.score * weight,
    metadata := dictSet (dictSet r.metadata
      "is_prerequisite" (MetaVal.bool true))
      "prerequisite_for" (MetaVal.str mainTopic) }

/-- The abstracted collaborators of `PrerequisiteAwareRetriever`. -/
structure PACollab where
  /-- `GapDetector.analyze_query` (keyword matching, detector.py). -/
  detect : String → Option String
  /-- `get_topic_info(topic)["display_name"]` from the static catalog
  (topics.py); `none` for an unknown topic. -/
  topicInfo : String → Option String
  /-- The embed-and-query path used by the base `Retriever`. -/
  querySearch : String → Nat → Option (List (String × String)) →
    List QueryResult
  /-- The store's semantic search at the embedded main query. -/
  semDb : Nat → List QueryResult
  /-- The store's full-text SQL query. -/
  ftDb : String → Nat → List QueryResult
  /-- `cleanup_math_text` (utils/text_cleanup.py). -/
  cleanup : String → String

/-- The per-prerequisite-topic loop of step 3: for each prerequisite whose
topic info exists, record it as used, retrieve with the display-name
augmented query and topic-scoped filters, down-weight and tag. -/
def prereqLoop (c : PACollab) (detectedTopic : String) (query : String)
    (nPrereqResults : Nat) (filters : Option (List (String × String)))
    (weight : ℚ) :
    List String → Except PyErr (List String × List RetrievalResult)
  | [] => Except.ok ([], [])
  | t :: ts =>
    match c.topicInfo t with
    | none => prereqLoop c detectedTopic query nPrereqResults filters weight ts
    | some displayName =>
      (retrieverRetrieve c.querySearch (displayName ++ ": " ++ query)
        nPrereqResults
        (some (dictSet (filters.getD []) "topic" t))).bind (fun rs =>
      (prereqLoop c detectedTopic query nPrereqResults filters weight ts).map
        (fun rest =>
          (t :: rest.1,
           rs.map (tagPrereqResult weight detectedTopic) ++ rest.2)))

/-- `PrerequisiteAwareResult`. -/
structure PrerequisiteAwareResult where
  results : List RetrievalResult
  detected_topic : Option String
  prerequisites_used : List String
  main_results_count : Nat
  prerequisite_results_count : Nat
deriving Repr

/-- Step 4's deduplication: one pass over the merged list keeping, per
chunk id, the first-seen entry unless a strictly higher-scored duplicate
arrives. -/
def dedupKeepHigher (rs : List RetrievalResult) :
    List (String × RetrievalResult) :=
  rs.foldl (fun m r =>
    match dictGet m r.chunk_id with
    | none => dictSet m r.chunk_id r
    | some prev =>
      if r.score > prev.score then dictSet m r.chunk_id r else m) []

/-- `PrerequisiteAwareRetriever.retrieve`.  In hybrid mode (the
`use_hybrid_search` flag and an `isinstance(..., PgVectorStore)` check) the
main results come from `hybrid_search` with doubled candidate count,
filtered by the minimum score, content-cleaned, and truncated; otherwise
the source calls `Retriever.retrieve(query, n_results, filters,
min_score=0.45)`, and since `Retriever.retrieve` has no `min_score`
parameter that call raises `TypeError` before any search runs.  Then the
prerequisite pass (when requested and a topic was detected), merge,
dedup keeping the higher score, and a stable sort by score descending. -/
def paRetrieve (c : PACollab) (g : Graph) (maxDepth : Nat)
    (prereqWeight : ℚ) (useHybrid : Bool) (isPgStore : Bool) (semWeight : ℚ)
    (query : String) (nResults nPrereqResults : Nat)
    (filters : Option (List (String × String))) (includePrereqs : Bool) :
    Except PyErr PrerequisiteAwareResult :=
  let detectedTopic := c.detect query
  (if useHybrid && isPgStore then
    Except.ok
      ((((hybridSearch c.semDb c.ftDb query (nResults * 2) semWeight).filter
          (fun r => r.score ≥ paMinScore)).map (fun r =>
        ({ content := c.cleanup r.content, score := r.score,
           metadata := r.metadata, chunk_id := r.id } : RetrievalResult))).take
        nResults)
  else
    Except.error (PyErr.typeError
      "retrieve() got an unexpected keyword argument min_score")
  ).bind (fun mainResults =>
  ((match detectedTopic with
    | some topic =>
      if includePrereqs then
        prereqLoop c topic query nPrereqResults filters prereqWeight
          (getLimitedPrerequisites g maxDepth topic)
      else Except.ok ([], [])
    | none => Except.ok ([], [])) :
    Except PyErr (List String × List RetrievalResult)).map (fun prereqPass =>
  let allResults := mainResults ++ prereqPass.2
  let uniqueResults := (dedupKeepHigher allResults).map (fun p => p.2)
  { results := sortStable (fun a b => b.score ≤ a.score) uniqueResults,
    detected_topic := detectedTopic,
    prerequisites_used := prereqPass.1,
    main_results_count := mainResults.length,
    prerequisite_results_count := prereqPass.2.length }))

/-- A concrete stored chunk used by the retriever scenarios. -/
def qrb : QueryResult := ⟨"b", "beta content", [], 1/2⟩

/-- A concrete collaborator bundle: the detector always reports the chain
rule topic, only `functions.composition` has catalog info, searches return
fixed small result sets. -/
def stubCollab : PACollab :=
  { detect := fun _ => some "derivatives.chain_rule",
    topicInfo := fun t =>
      if t = "functions.composition" then some "Function Composition"
      else none,
    querySearch := fun _ _ _ => [qrb],
    semDb := fun _ => [],
    ftDb := fun _ _ => [],
    cleanup := fun s => s }

/-- C2 (evaluating the failing path): whenever the hybrid branch is not
taken — `use_hybrid_search` disabled, or the store is not a `PgVectorStore`
— `PrerequisiteAwareRetriever.retrieve` raises `TypeError`, because it
passes `min_score=0.45` to `Retriever.retrieve`, whose signature has no
such parameter.  No filtering at 0.45 happens in that mode. -/
theorem prerequisite_retriever_semantic_mode_raises (c : PACollab)
    (g : Graph) (maxDepth : Nat) (w : ℚ) (useHybrid isPg : Bool) (sw : ℚ)
    (q : String) (n np : Nat) (filters : Option (List (String × String)))
    (inc : Bool) (h : useHybrid = false ∨ isPg = false) :
    paRetrieve c g maxDepth w useHybrid isPg sw q n np filters inc =
      Except.error (PyErr.typeError
        "retrieve() got an unexpected keyword argument min_score") := by
  unfold paRetrieve
  rcases h with h | h <;> simp [h, Except.bind]

theorem enumFrom_filter_length_le_one (rs : List QueryResult)
    (hnd : (rs.map (fun r => r.id)).Nodup) (i : String) :
    ∀ k, ((List.enumFrom k rs).filter (fun p => p.2.id = i)).length ≤ 1 := by
  induction rs with
  | nil => intro k; simp
  | cons r rs ih =>
    intro k
    simp only [List.map_cons, List.nodup_cons] at hnd
    rw [List.enumFrom_cons, List.filter_cons]
    by_cases hid : r.id = i
    · rw [if_pos (by simpa using hid)]
      rw [filter_enumFrom_eq_nil rs i (hid ▸ hnd.1) (k + 1)]
      simp
    · rw [if_neg (by simpa using hid)]
      exact ih hnd.2 (k + 1)

theorem rrfContrib_le_of_nodup (w : ℚ) (rs : List QueryResult)
    (hnd : (rs.map (fun r => r.id)).Nodup) (hw : 0 ≤ w) (i : String) :
    rrfContrib w rs i ≤ w * (1/61) := by
  unfold rrfContrib
  have hlen := enumFrom_filter_length_le_one rs hnd i 0
  rw [show List.enum rs = List.enumFrom 0 rs from rfl]
  cases hfl : (List.enumFrom 0 rs).filter (fun p => p.2.id = i) with
  | nil => simp; positivity
  | cons p ps =>
    rw [hfl] at hlen
    cases ps with
    | cons q qs => simp at hlen
    | nil =>
      simp only [List.map_cons, List.map_nil, List.sum_cons, List.sum_nil,
        add_zero]
      rw [div_eq_mul_one_div]
      apply mul_le_mul_of_nonneg_left _ hw
      apply one_div_le_one_div_of_le
      · norm_num
      · have : (0 : ℚ) ≤ (p.1 : ℚ) := by positivity
        linarith

/-- C3: with distinct ids per list and a semantic weight in `[0, 1]`, every
score out of `hybrid_search` is at most `1/61` (the best case: rank 0 in
both lists); since `1/61 < 0.45`, the retriever's threshold filter removes
every hybrid candidate, so in hybrid mode
`PrerequisiteAwareRetriever.retrieve` (without the prerequisite pass)
returns no results at all. -/
theorem hybrid_scores_below_threshold :
    (∀ (sem ft : List QueryResult) (n : Nat) (w : ℚ),
      (sem.map (fun r => r.id)).Nodup → (ft.map (fun r => r.id)).Nodup →
      0 ≤ w → w ≤ 1 →
      (∀ r ∈ hybridFuse sem ft n w, r.score ≤ 1/61) ∧
      (hybridFuse sem ft n w).filter (fun r => r.score ≥ paMinScore) = []) ∧
    (∀ (c : PACollab) (g : Graph) (maxDepth : Nat) (wgt sw : ℚ)
        (q : String) (n np : Nat)
        (filters : Option (List (String × String))),
      ((c.semDb (n * 2 * 3)).map (fun r => r.id)).Nodup →
      ((fulltextSearch c.ftDb q (n * 2 * 3)).map (fun r => r.id)).Nodup →
      0 ≤ sw → sw ≤ 1 →
      paRetrieve c g maxDepth wgt true true sw q n np filters false =
        Except.ok ⟨[], c.detect q, [], 0, 0⟩) := by
  have hbound : ∀ (sem ft : List QueryResult) (n : Nat) (w : ℚ),
      (sem.map (fun r => r.id)).Nodup → (ft.map (fun r => r.id)).Nodup →
      0 ≤ w → w ≤ 1 →
      ∀ r ∈ hybridFuse sem ft n w, r.score ≤ 1/61 := by
    intro sem ft n w hndS hndF hw0 hw1 r hr
    rw [hybridFuse_unfolded] at hr
    obtain ⟨i, hi, rfl⟩ := List.mem_map.mp hr
    show fusedScore sem ft w i ≤ 1/61
    rw [fusedScore_eq_contribs]
    have h1 := rrfContrib_le_of_nodup w sem hndS hw0 i
    have h2 := rrfContrib_le_of_nodup (1 - w) ft hndF (by linarith) i
    have : w * (1/61) + (1 - w) * (1/61) = 1/61 := by ring
    linarith
  have hfilter : ∀ (sem ft : List QueryResult) (n : Nat) (w : ℚ),
      (sem.map (fun r => r.id)).Nodup → (ft.map (fun r => r.id)).Nodup →
      0 ≤ w → w ≤ 1 →
      (hybridFuse sem ft n w).filter (fun r => r.score ≥ paMinScore) = [] := by
    intro sem ft n w hndS hndF hw0 hw1
    rw [List.filter_eq_nil_iff]
    intro r hr
    have := hbound sem ft n w hndS hndF hw0 hw1 r hr
    simp only [ge_iff_le, decide_eq_true_eq, not_le, paMinScore]
    have h61 : (1 : ℚ)/61 < 45/100 := by norm_num
    linarith
  refine ⟨fun sem ft n w h1 h2 h3 h4 =>
    ⟨hbound sem ft n w h1 h2 h3 h4, hfilter sem ft n w h1 h2 h3 h4⟩,
    ?_⟩
  intro c g maxDepth wgt sw q n np filters hndS hndF hw0 hw1
  have hfe : (hybridSearch c.semDb c.ftDb q (n * 2) sw).filter
      (fun r => r.score ≥ paMinScore) = [] :=
    hfilter (c.semDb (n * 2 * 3)) (fulltextSearch c.ftDb q (n * 2 * 3))
      (n * 2) sw hndS hndF hw0 hw1
  unfold paRetrieve
  rw [show (true && true) = true from rfl, if_pos rfl, hfe]
  simp only [List.map_nil, List.take_nil]
  cases hdet : c.detect q with
  | none => rfl
  | some topic => rfl

/-- Witness for C3: with empty store responses (trivially distinct ids) and
the default weight 0.7, hybrid-mode retrieval returns an empty result
set. -/
theorem hybrid_scores_below_threshold_witness :
    paRetrieve stubCollab [] 2 (7/10) true true (7/10)
        "What is a derivative?" 5 2 none false =
      Except.ok ⟨[], some "derivatives.chain_rule", [], 0, 0⟩ :=
  hybrid_scores_below_threshold.2 stubCollab [] 2 (7/10) (7/10)
    "What is a derivative?" 5 2 none (by decide) (by decide)
    (by norm_num) (by norm_num)

/-- Witness for C2: a concrete call in plain-semantic mode raises the
TypeError instead of returning filtered results. -/
theorem prerequisite_retriever_semantic_mode_raises_witness :
    paRetrieve stubCollab [] 2 (7/10) false true (7/10)
        "What is a derivative?" 5 2 none true =
      Except.error (PyErr.typeError
        "retrieve() got an unexpected keyword argument min_score") :=
  prerequisite_retriever_semantic_mode_raises stubCollab [] 2 (7/10)
    false true (7/10) "What is a derivative?" 5 2 none true (Or.inl rfl)

/-- C4 (amended): every prerequisite-topic result produced by the
prerequisite pass is the down-weighted tagged version of a raw retrieval
result: its score is the raw score multiplied by `prerequisite_weight`
(default 0.7, not 0.8), its metadata carries `is_prerequisite = true` and
`prerequisite_for = detected topic`; with the default weight, a positive
raw score is strictly decreased, hence ranks below a main-topic result with
the same raw score. -/
theorem prerequisite_weighting_and_tagging :
    prerequisiteWeightDefault = 7/10 ∧
    (∀ (w : ℚ) (topic : String) (r : RetrievalResult),
      (tagPrereqResult w topic r).score = r.score * w ∧
      dictGet (tagPrereqResult w topic r).metadata "is_prerequisite" =
        some (MetaVal.bool true) ∧
      dictGet (tagPrereqResult w topic r).metadata "prerequisite_for" =
        some (MetaVal.str topic)) ∧
    (∀ (c : PACollab) (topic q : String) (np : Nat)
        (filters : Option (List (String × String))) (w : ℚ)
        (ts used : List String) (rs : List RetrievalResult),
      prereqLoop c topic q np filters w ts = Except.ok (used, rs) →
      ∀ r ∈ rs, ∃ raw, r = tagPrereqResult w topic raw) ∧
    (∀ (r : RetrievalResult), 0 < r.score → ∀ (topic : String),
      (tagPrereqResult prerequisiteWeightDefault topic r).score <
        r.score) := by
  refine ⟨rfl, ?_, ?_, ?_⟩
  · intro w topic r
    refine ⟨rfl, ?_, ?_⟩
    · show dictGet (dictSet (dictSet r.metadata
        "is_prerequisite" (MetaVal.bool true))
        "prerequisite_for" (MetaVal.str topic)) "is_prerequisite" =
        some (MetaVal.bool true)
      rw [dictGet_dictSet_ne _ _ _ _ (by decide), dictGet_dictSet_self]
    · exact dictGet_dictSet_self _ _ _
  · intro c topic q np filters w ts
    induction ts with
    | nil =>
      intro used rs h r hr
      simp only [prereqLoop] at h
      cases h
      exact absurd hr (List.not_mem_nil r)
    | cons t ts ih =>
      intro used rs h r hr
      simp only [prereqLoop] at h
      cases hti : c.topicInfo t with
      | none =>
        rw [hti] at h
        dsimp only at h
        exact ih used rs h r hr
      | some dn =>
        rw [hti] at h
        dsimp only at h
        cases hret : retrieverRetrieve c.querySearch (dn ++ ": " ++ q) np
            (some (dictSet (filters.getD []) "topic" t)) with
        | error e =>
          rw [hret] at h
          simp only [Except.bind] at h
          exact absurd h (by simp)
        | ok base =>
          rw [hret] at h
          simp only [Except.bind] at h
          cases hrest : prereqLoop c topic q np filters w ts with
          | error e =>
            rw [hrest] at h
            simp only [Except.map] at h
            exact absurd h (by simp)
          | ok rest =>
            rw [hrest] at h
            simp only [Except.map, Except.ok.injEq, Prod.mk.injEq] at h
            obtain ⟨h1, h2⟩ := h
            subst h2
            rcases List.mem_append.mp hr with hr | hr
            · obtain ⟨raw, _, rfl⟩ := List.mem_map.mp hr
              exact ⟨raw, rfl⟩
            · exact ih rest.1 rest.2 (by rw [hrest]) r hr
  · intro r hr topic
    show r.score * prerequisiteWeightDefault < r.score
    calc r.score * prerequisiteWeightDefault
        < r.score * 1 := by
          apply mul_lt_mul_of_pos_left _ hr
          norm_num [prerequisiteWeightDefault]
      _ = r.score := mul_one _

/-- Counterexample for C4 as stated: the default `prerequisite_weight` in
`PrerequisiteAwareRetriever.__init__` is 0.7, not 0.8. -/
theorem prerequisite_weight_default_counterexample :
    prerequisiteWeightDefault = 7/10 ∧ ¬ prerequisiteWeightDefault = 8/10 :=
  ⟨rfl, by norm_num [prerequisiteWeightDefault]⟩

/-- The `RetrievalResult` that the base retriever builds from `qrb`. -/
def qrbRetrieval : RetrievalResult := ⟨"beta content", 1/2, [], "b"⟩

/-- Witness for C4: a concrete prerequisite pass over the topic
`functions.composition` yields exactly the tagged, down-weighted copy of
the raw result, and the default weight strictly lowers the positive score
1/2. -/
theorem prerequisite_weighting_and_tagging_witness :
    (∃ raw, tagPrereqResult (7/10) "derivatives.chain_rule" qrbRetrieval =
      tagPrereqResult (7/10) "derivatives.chain_rule" raw) ∧
    (tagPrereqResult prerequisiteWeightDefault "derivatives.chain_rule"
      qrbRetrieval).score < qrbRetrieval.score := by
  constructor
  · exact prerequisite_weighting_and_tagging.2.2.1 stubCollab
      "derivatives.chain_rule" "What is a derivative?" 2 none (7/10)
      ["functions.composition"] ["functions.composition"]
      [tagPrereqResult (7/10) "derivatives.chain_rule" qrbRetrieval]
      rfl _ (by simp)
  · exact prerequisite_weighting_and_tagging.2.2.2 qrbRetrieval
      (by norm_num [qrbRetrieval]) "derivatives.chain_rule"

theorem acc_not_self {α : Type} {r : α → α → Prop} {a : α} (h : Acc r a) :
    ¬ r a a := by
  induction h with
  | intro x _ ih => exact fun hxx => ih x hxx hxx

theorem acc_no_transGen_self {α : Type} {r : α → α → Prop} {a : α}
    (h : Acc r a) : ¬ Relation.TransGen r a a :=
  acc_not_self h.transGen

theorem foldDfs_stays_true {f : Bool × List String → String →
      Bool × List String}
    (h1 : ∀ vis p, f (true, vis) p = (true, vis)) :
    ∀ (ps : List String) (vis : List String),
      List.foldl f (true, vis) ps = (true, vis) := by
  intro ps
  induction ps with
  | nil => intro vis; rfl
  | cons p ps ih => intro vis; rw [List.foldl_cons, h1, ih]

/-- The inner prerequisite loop of `has_cycle`, specified generically over
its step function: if the loop finishes without reporting a cycle, the
visited set only grew, every newly visited node off the recursion stack is
accessible, and every scanned prerequisite is accessible. -/
theorem foldDfs_spec (g : Graph) (tr : List String)
    (f : Bool × List String → String → Bool × List String)
    (dchild : String → List String → Bool × List String)
    (h1 : ∀ vis p, f (true, vis) p = (true, vis))
    (h2 : ∀ vis p, p ∉ vis → f (false, vis) p = dchild p vis)
    (h3 : ∀ vis p, p ∈ vis → p ∈ tr → f (false, vis) p = (true, vis))
    (h4 : ∀ vis p, p ∈ vis → p ∉ tr → f (false, vis) p = (false, vis))
    (hnode : ∀ p vis res, tr ⊆ vis →
      (∀ v ∈ vis, v ∉ tr → Acc (stepRel g) v) →
      dchild p vis = (false, res) →
      vis ⊆ res ∧ p ∈ res ∧ ∀ v ∈ res, v ∉ tr → Acc (stepRel g) v) :
    ∀ (ps : List String) (vis res : List String),
      tr ⊆ vis → (∀ v ∈ vis, v ∉ tr → Acc (stepRel g) v) →
      List.foldl f (false, vis) ps = (false, res) →
      vis ⊆ res ∧ (∀ v ∈ res, v ∉ tr → Acc (stepRel g) v) ∧
        ∀ p ∈ ps, Acc (stepRel g) p := by
  intro ps
  induction ps with
  | nil =>
    intro vis res hsub hacc h
    simp only [List.foldl_nil, Prod.mk.injEq] at h
    rw [← h.2]
    exact ⟨fun x hx => hx, hacc, by simp⟩
  | cons p ps ih =>
    intro vis res hsub hacc h
    rw [List.foldl_cons] at h
    by_cases hp : p ∈ vis
    · by_cases hptr : p ∈ tr
      · rw [h3 vis p hp hptr, foldDfs_stays_true h1] at h
        simp at h
      · rw [h4 vis p hp hptr] at h
        obtain ⟨hv, hinv, hall⟩ := ih vis res hsub hacc h
        refine ⟨hv, hinv, fun q hq => ?_⟩
        rcases List.mem_cons.mp hq with rfl | hq
        · exact hacc q hp hptr
        · exact hall q hq
    · rw [h2 vis p hp] at h
      rcases hchild : dchild p vis with ⟨b, res'⟩
      cases b with
      | true =>
        rw [hchild, foldDfs_stays_true h1] at h
        simp at h
      | false =>
        rw [hchild] at h
        obtain ⟨hvv, hpin, hinv'⟩ := hnode p vis res' hsub hacc hchild
        have hsub' : tr ⊆ res' := fun x hx => hvv (hsub hx)
        obtain ⟨hv2, hinv2, hall⟩ := ih res' res hsub' hinv' h
        have haccp : Acc (stepRel g) p :=
          hinv' p hpin (fun hmem => hp (hsub hmem))
        refine ⟨fun x hx => hv2 (hvv hx), hinv2, fun q hq => ?_⟩
        rcases List.mem_cons.mp hq with rfl | hq
        · exact haccp
        · exact hall q hq

/-- `has_cycle(t)` soundness: a `False` answer means the node, everything
newly visited, and every node already visited off the recursion stack are
all accessible along prerequisite edges. -/
theorem dfsNode_false_spec (g : Graph) :
    ∀ (fuel : Nat) (t : String) (visited recStack res : List String),
      recStack ⊆ visited →
      (∀ v ∈ visited, v ∉ recStack → Acc (stepRel g) v) →
      dfsNode g fuel t visited recStack = (false, res) →
      visited ⊆ res ∧ t ∈ res ∧
        ∀ v ∈ res, v ∉ recStack → Acc (stepRel g) v := by
  intro fuel
  induction fuel with
  | zero =>
    intro t visited recStack res _ _ h
    simp [dfsNode] at h
  | succ fuel ih =>
    intro t visited recStack res hsub hacc h
    rw [show dfsNode g (fuel + 1) t visited recStack =
      (getPrerequisites g t).foldl
        (fun (st : Bool × List String) p =>
          if st.1 then st
          else if p ∉ st.2 then dfsNode g fuel p st.2 (t :: recStack)
          else if p ∈ t :: recStack then (true, st.2)
          else st)
        (false, t :: visited) from rfl] at h
    have hspec := foldDfs_spec g (t :: recStack)
      (fun (st : Bool × List String) p =>
        if st.1 then st
        else if p ∉ st.2 then dfsNode g fuel p st.2 (t :: recStack)
        else if p ∈ t :: recStack then (true, st.2)
        else st)
      (fun p vis => dfsNode g fuel p vis (t :: recStack))
      (fun vis p => rfl)
      (fun vis p hp => by simp [hp])
      (fun vis p hp hptr => by simp [hp, hptr])
      (fun vis p hp hptr => by simp [hp, hptr])
      (fun p vis res htr hinv hch => ih p vis (t :: recStack) res htr hinv hch)
      (getPrerequisites g t) (t :: visited) res
      (fun x hx => by
        rcases List.mem_cons.mp hx with rfl | hx
        · exact List.mem_cons_self x visited
        · exact List.mem_cons_of_mem t (hsub hx))
      (fun v hv hvtr => by
        rcases List.mem_cons.mp hv with rfl | hv
        · exact absurd (List.mem_cons_self v recStack) hvtr
        · exact hacc v hv (fun hm => hvtr (List.mem_cons_of_mem t hm)))
      h
    obtain ⟨hv, hinv, hall⟩ := hspec
    refine ⟨fun x hx => hv (List.mem_cons_of_mem t hx),
      hv (List.mem_cons_self t visited), ?_⟩
    intro v hvres hvnot
    by_cases hvt : v = t
    · subst hvt
      exact Acc.intro v (fun u hu => hall u hu)
    · exact hinv v hvres (fun hm => by
        rcases List.mem_cons.mp hm with rfl | hm
        · exact hvt rfl
        · exact hvnot hm)

theorem dictGet_eq_none_of_not_mem_keys {α : Type} (m : List (String × α))
    (k : String) (h : k ∉ dictKeys m) : dictGet m k = none := by
  unfold dictGet
  cases hf : m.find? (fun p => p.1 = k) with
  | none => rfl
  | some p =>
    have hp := List.find?_some hf
    simp only [decide_eq_true_eq] at hp
    have := List.mem_of_find?_eq_some hf
    exact absurd (hp ▸ List.mem_map_of_mem (fun q => q.1) this) h

/-- The outer scan of `_would_create_cycle`: a `False` verdict makes every
scanned key accessible. -/
theorem scanFold_spec (g : Graph) (fuel : Nat) :
    ∀ (ks : List String) (vis : List String),
      (∀ v ∈ vis, Acc (stepRel g) v) →
      (List.foldl
        (fun (st : Bool × List String) t =>
          if st.1 then st
          else if t ∉ st.2 then dfsNode g fuel t st.2 []
          else st)
        (false, vis) ks).1 = false →
      ∀ k ∈ ks, Acc (stepRel g) k := by
  intro ks
  induction ks with
  | nil => intro vis _ _ k hk; exact absurd hk (List.not_mem_nil k)
  | cons t ks ih =>
    intro vis hacc h
    rw [List.foldl_cons] at h
    rw [if_neg (show ¬ (((false : Bool), vis).1 = true) by simp)] at h
    by_cases ht : t ∈ vis
    · rw [if_neg (show ¬ (t ∉ ((false : Bool), vis).2) by simpa using ht)]
        at h
      intro k hk
      rcases List.mem_cons.mp hk with rfl | hk
      · exact hacc k ht
      · exact ih vis hacc h k hk
    · rw [if_pos (show t ∉ ((false : Bool), vis).2 from ht)] at h
      rcases hchild : dfsNode g fuel t vis [] with ⟨b, res⟩
      cases b with
      | true =>
        rw [hchild] at h
        rw [show List.foldl
          (fun (st : Bool × List String) t =>
            if st.1 then st
            else if t ∉ st.2 then dfsNode g fuel t st.2 []
            else st) ((true : Bool), res) ks = (true, res) from
          foldDfs_stays_true (fun vis p => rfl) ks res] at h
        simp at h
      | false =>
        rw [hchild] at h
        obtain ⟨hvv, htin, hinv⟩ := dfsNode_false_spec g fuel t vis [] res
          (by simp) (fun v hv _ => hacc v hv) hchild
        have hacc' : ∀ v ∈ res, Acc (stepRel g) v :=
          fun v hv => hinv v hv (List.not_mem_nil v)
        intro k hk
        rcases List.mem_cons.mp hk with rfl | hk
        · exact hacc' k htin
        · exact ih res hacc' h k hk

/-- If the cycle check passes, the trial graph is acyclic. -/
theorem wouldCreateCycle_false_acyclic (g : Graph) (t : String)
    (ps : List String) (h : wouldCreateCycle g t ps = false) :
    Acyclic (dictSet g t ps) := by
  intro x
  by_cases hx : x ∈ dictKeys (dictSet g t ps)
  · exact scanFold_spec (dictSet g t ps) _ (dictKeys (dictSet g t ps)) []
      (by simp) h x hx
  · refine Acc.intro x (fun u hu => ?_)
    unfold stepRel getPrerequisites at hu
    rw [dictGet_eq_none_of_not_mem_keys _ _ hx] at hu
    exact absurd hu (List.not_mem_nil u)

/-- Every graph reachable by successful `add_topic` calls is acyclic. -/
theorem built_acyclic (g : Graph) (h : Built g) : Acyclic g := by
  induction h with
  | nil =>
    intro t
    refine Acc.intro t (fun u hu => ?_)
    unfold stepRel getPrerequisites dictGet at hu
    simp at hu
  | @step g' topic prerequisites hb hok ih =>
    clear ih
    unfold addTopic at hok ⊢
    cases hw : wouldCreateCycle g' topic prerequisites with
    | true => rw [hw] at hok; simp at hok
    | false =>
      simp only [Bool.false_eq_true, if_false]
      exact wouldCreateCycle_false_acyclic g' topic prerequisites hw

/-- Built graphs have distinct keys. -/
theorem built_nodup_keys (g : Graph) (h : Built g) : (dictKeys g).Nodup := by
  induction h with
  | nil => simp [dictKeys]
  | @step g' topic prerequisites hb hok ih =>
    unfold addTopic at hok ⊢
    cases hw : wouldCreateCycle g' topic prerequisites with
    | true => rw [hw] at hok; simp at hok
    | false =>
      simp only [Bool.false_eq_true, if_false]
      exact nodup_dictKeys_dictSet g' topic prerequisites ih

/-- C8: if inserting a topic with its prerequisites would create a cycle,
`add_topic` raises `CircularDependencyError` and leaves the graph mapping
exactly as it was (the check runs on a trial copy before any mutation); on
success the topic's prerequisite list is set, overwriting any previous
entry. -/
theorem add_topic_cycle_safety :
    (∀ (g : Graph) (t : String) (ps : List String),
      HasCycle (dictSet g t ps) → ∃ e, addTopic g t ps = (g, some e)) ∧
    (∀ (g : Graph) (t : String) (ps : List String) (g' : Graph)
        (e : GraphErr), addTopic g t ps = (g', some e) → g' = g) ∧
    (∀ (g : Graph) (t : String) (ps : List String) (g' : Graph),
      addTopic g t ps = (g', none) → g' = dictSet g t ps) := by
  refine ⟨?_, ?_, ?_⟩
  · intro g t ps hcyc
    cases hw : wouldCreateCycle g t ps with
    | false =>
      obtain ⟨x, hx⟩ := hcyc
      exact absurd hx
        (acc_no_transGen_self (wouldCreateCycle_false_acyclic g t ps hw x))
    | true =>
      exact ⟨GraphErr.circularDependency
        ("Adding " ++ t ++ " would create a cycle"), by simp [addTopic, hw]⟩
  · intro g t ps g' e h
    unfold addTopic at h
    split at h
    · injection h with h1 h2
      exact h1.symm
    · injection h with h1 h2
      simp at h2
  · intro g t ps g' h
    unfold addTopic at h
    split at h
    · injection h with h1 h2
      simp at h2
    · injection h with h1 h2
      exact h1.symm

/-- Witness for C8: adding `b → a` to the graph `{a: [b]}` would close the
two-cycle `a ↔ b`, and the call is rejected with the graph unchanged. -/
theorem add_topic_cycle_safety_witness :
    ∃ e, addTopic [("a", ["b"])] "b" ["a"] = ([("a", ["b"])], some e) := by
  have h1 : stepRel (dictSet [("a", ["b"])] "b" ["a"]) "a" "b" := by
    show "a" ∈ getPrerequisites (dictSet [("a", ["b"])] "b" ["a"]) "b"
    decide
  have h2 : stepRel (dictSet [("a", ["b"])] "b" ["a"]) "b" "a" := by
    show "b" ∈ getPrerequisites (dictSet [("a", ["b"])] "b" ["a"]) "a"
    decide
  exact add_topic_cycle_safety.1 [("a", ["b"])] "b" ["a"]
    ⟨"a", Relation.TransGen.head h1 (Relation.TransGen.single h2)⟩

theorem processDeps_deg (ds : List String) (hnd : ds.Nodup) :
    ∀ (deg : String → Int) (q : List String) (k : String),
      (processDeps ds deg q).1 k = if k ∈ ds then deg k - 1 else deg k := by
  induction ds with
  | nil => intro deg q k; simp [processDeps]
  | cons d ds ih =>
    intro deg q k
    simp only [List.nodup_cons] at hnd
    rw [show processDeps (d :: ds) deg q =
      processDeps ds (fun k => if k = d then deg k - 1 else deg k)
        (if (if d = d then deg d - 1 else deg d) = 0 then q ++ [d] else q)
      from rfl]
    rw [ih hnd.2]
    by_cases hk : k = d
    · subst hk
      simp [hnd.1]
    · by_cases hks : k ∈ ds <;> simp [hks, hk]

theorem processDeps_queue (ds : List String) (hnd : ds.Nodup) :
    ∀ (deg : String → Int) (q : List String),
      (processDeps ds deg q).2 = q ++ ds.filter (fun d => deg d = 1) := by
  induction ds with
  | nil => intro deg q; simp [processDeps]
  | cons d ds ih =>
    intro deg q
    simp only [List.nodup_cons] at hnd
    rw [show processDeps (d :: ds) deg q =
      processDeps ds (fun k => if k = d then deg k - 1 else deg k)
        (if (if d = d then deg d - 1 else deg d) = 0 then q ++ [d] else q)
      from rfl]
    rw [ih hnd.2]
    have hfc : ds.filter
        (fun e => (if e = d then deg e - 1 else deg e) = 1) =
        ds.filter (fun e => deg e = 1) := by
      apply List.filter_congr
      intro e he
      rw [if_neg (fun (hed : e = d) => hnd.1 (hed ▸ he))]
    rw [hfc, if_pos rfl, List.filter_cons]
    by_cases hd : deg d = 1
    · rw [if_pos (show deg d - 1 = 0 by omega),
        if_pos (show decide (deg d = 1) = true by simp [hd])]
      simp
    · rw [if_neg (show ¬ (deg d - 1 = 0) by omega),
        if_neg (show ¬ (decide (deg d = 1) = true) by simp [hd])]

theorem mem_entry_iff_dictGet {α : Type} (m : List (String × α))
    (hK : (dictKeys m).Nodup) (k : String) (v : α) :
    (k, v) ∈ m ↔ dictGet m k = some v := by
  induction m with
  | nil => simp [dictGet]
  | cons p rest ih =>
    simp only [dictKeys, List.map_cons, List.nodup_cons] at hK
    constructor
    · intro hm
      rcases List.mem_cons.mp hm with rfl | hm
      · unfold dictGet
        rw [List.find?_cons_of_pos _ (by simp)]
        rfl
      · have hne : p.1 ≠ k := by
          intro he
          exact hK.1 (he ▸ List.mem_map_of_mem (fun q => q.1) hm)
        rw [show dictGet (p :: rest) k = dictGet rest k by
          unfold dictGet
          rw [List.find?_cons_of_neg _ (by simp [hne])]]
        exact (ih hK.2).mp hm
    · intro hg
      by_cases hpk : p.1 = k
      · rw [show dictGet (p :: rest) k = some p.2 by
          unfold dictGet
          rw [List.find?_cons_of_pos _ (by simp [hpk])]
          rfl] at hg
        simp only [Option.some.injEq] at hg
        have hpe : p = (k, v) := by
          rcases p with ⟨p1, p2⟩
          simp only at hpk hg
          rw [hpk, hg]
        exact hpe ▸ List.mem_cons_self p rest
      · rw [show dictGet (p :: rest) k = dictGet rest k by
          unfold dictGet
          rw [List.find?_cons_of_neg _ (by simp [hpk])]] at hg
        exact List.mem_cons_of_mem p ((ih hK.2).mpr hg)

theorem getDependents_nodup (g : Graph) (hK : (dictKeys g).Nodup)
    (t : String) : (getDependents g t).Nodup := by
  unfold getDependents
  have hsub : ((g.filter (fun p => t ∈ p.2)).map (fun p => p.1)).Sublist
      (g.map (fun p => p.1)) :=
    (List.filter_sublist g).map (fun p => p.1)
  exact hsub.nodup hK

theorem getDependents_subset_keys (g : Graph) (t : String) :
    ∀ k ∈ getDependents g t, k ∈ dictKeys g := by
  intro k hk
  unfold getDependents at hk
  obtain ⟨p, hp, hpk⟩ := List.mem_map.mp hk
  exact hpk ▸ List.mem_map_of_mem _ (List.mem_of_mem_filter hp)

theorem mem_getDependents (g : Graph) (hK : (dictKeys g).Nodup)
    (t k : String) :
    k ∈ getDependents g t ↔ k ∈ dictKeys g ∧ t ∈ getPrerequisites g k := by
  unfold getDependents
  constructor
  · intro hk
    obtain ⟨p, hp, hpk⟩ := List.mem_map.mp hk
    have hmem := List.mem_of_mem_filter hp
    have hcond := List.of_mem_filter hp
    simp only [decide_eq_true_eq] at hcond
    have hget : dictGet g p.1 = some p.2 :=
      (mem_entry_iff_dictGet g hK p.1 p.2).mp (by simpa using hmem)
    refine ⟨hpk ▸ List.mem_map_of_mem _ hmem, ?_⟩
    unfold getPrerequisites
    rw [← hpk, hget]
    exact hcond
  · rintro ⟨hkk, ht⟩
    obtain ⟨p, hp, hpk⟩ := List.mem_map.mp hkk
    have hget : dictGet g p.1 = some p.2 :=
      (mem_entry_iff_dictGet g hK p.1 p.2).mp (by simpa using hp)
    unfold getPrerequisites at ht
    rw [← hpk, hget] at ht
    simp only [Option.getD_some] at ht
    refine List.mem_map.mpr ⟨p, List.mem_filter.mpr ⟨hp, by simpa using ht⟩,
      hpk⟩

/-- If as many distinct popped topics hit a prerequisite list as the list is
long, the list has no duplicates and is entirely contained in the popped
set. -/
theorem filter_mem_length_eq (res P : List String) (hres : res.Nodup)
    (h : (res.filter (fun τ => τ ∈ P)).length = P.length) :
    (∀ p ∈ P, p ∈ res) ∧ P.Nodup := by
  set F := res.filter (fun τ => τ ∈ P) with hF
  have hFnd : F.Nodup := hres.filter _
  have hFsub : ∀ x ∈ F, x ∈ P := by
    intro x hx
    have := List.of_mem_filter hx
    simpa using this
  have hFfin : F.toFinset ⊆ P.toFinset := by
    intro x hx
    rw [List.mem_toFinset] at hx ⊢
    exact hFsub x hx
  have hcard1 : F.length = F.toFinset.card :=
    (List.toFinset_card_of_nodup hFnd).symm
  have hcard2 : F.toFinset.card ≤ P.toFinset.card := Finset.card_le_card hFfin
  have hcard3 : P.toFinset.card = P.dedup.length := List.card_toFinset P
  have hdlen : P.dedup.length ≤ P.length := (List.dedup_sublist P).length_le
  have hPnd : P.Nodup := by
    have : P.dedup.length = P.length := by omega
    have := (List.dedup_sublist P).eq_of_length this
    rw [← this]
    exact P.nodup_dedup
  have hEq : F.toFinset = P.toFinset := by
    apply Finset.eq_of_subset_of_card_le hFfin
    omega
  refine ⟨?_, hPnd⟩
  intro p hp
  have : p ∈ F.toFinset := by
    rw [hEq, List.mem_toFinset]
    exact hp
  rw [List.mem_toFinset] at this
  exact List.mem_of_mem_filter this

/-- Converse count: a duplicate-free prerequisite list contained in the
popped set is hit exactly its length many times. -/
theorem filter_mem_length_of_subset (res P : List String) (hres : res.Nodup)
    (hP : P.Nodup) (h : ∀ p ∈ P, p ∈ res) :
    (res.filter (fun τ => τ ∈ P)).length = P.length := by
  set F := res.filter (fun τ => τ ∈ P) with hF
  have hFnd : F.Nodup := hres.filter _
  have hEq : F.toFinset = P.toFinset := by
    ext x
    simp only [List.mem_toFinset, hF]
    constructor
    · intro hx
      have := List.of_mem_filter hx
      simpa using this
    · intro hx
      exact List.mem_filter.mpr ⟨h x hx, by simpa using hx⟩
  calc F.length = F.toFinset.card := (List.toFinset_card_of_nodup hFnd).symm
    _ = P.toFinset.card := by rw [hEq]
    _ = P.length := List.toFinset_card_of_nodup hP

theorem sum_map_add_distrib {α : Type} (l : List α) (f h : α → Nat) :
    (l.map (fun x => f x + h x)).sum = (l.map f).sum + (l.map h).sum := by
  induction l with
  | nil => rfl
  | cons x xs ih =>
    simp only [List.map_cons, List.sum_cons, ih]
    omega

theorem sum_map_indicator {α : Type} (l : List α) (p : α → Prop)
    [DecidablePred p] :
    (l.map (fun x => if p x then 1 else 0)).sum = (l.filter
      (fun x => decide (p x))).length := by
  induction l with
  | nil => rfl
  | cons x xs ih =>
    simp only [List.map_cons, List.sum_cons, List.filter_cons]
    by_cases hx : p x
    · rw [if_pos hx, if_pos (by simpa using hx)]
      simp [ih]
      omega
    · rw [if_neg hx, if_neg (by simpa using hx)]
      simpa using ih

theorem nodup_filter_length_eq (l1 l2 : List String) (h1 : l1.Nodup)
    (h2 : l2.Nodup) (h : ∀ x, x ∈ l1 ↔ x ∈ l2) : l1.length = l2.length := by
  rw [← List.toFinset_card_of_nodup h1, ← List.toFinset_card_of_nodup h2]
  congr 1
  ext x
  simp only [List.mem_toFinset]
  exact h x

/-- The measure bookkeeping for one Kahn iteration: the enqueued count plus
the decremented degree sum stays below the previous degree sum. -/
theorem sum_toNat_decrement (keys : List String) (deg : String → Int)
    (ds : List String) (hknd : keys.Nodup) (hdnd : ds.Nodup)
    (hsub : ∀ d ∈ ds, d ∈ keys) :
    (keys.map (fun k => (if k ∈ ds then deg k - 1 else deg k).toNat)).sum +
      (ds.filter (fun d => deg d = 1)).length ≤
    (keys.map (fun k => (deg k).toNat)).sum := by
  have hpoint : ∀ k ∈ keys,
      (if k ∈ ds then deg k - 1 else deg k).toNat +
        (if k ∈ ds ∧ deg k = 1 then 1 else 0) ≤ (deg k).toNat := by
    intro k _
    by_cases h1 : k ∈ ds
    · by_cases h2 : deg k = 1
      · rw [if_pos h1, if_pos ⟨h1, h2⟩]
        omega
      · rw [if_pos h1, if_neg (fun hc => h2 hc.2)]
        omega
    · rw [if_neg h1, if_neg (fun hc => h1 hc.1)]
      omega
  have hsum : (keys.map (fun k =>
        (if k ∈ ds then deg k - 1 else deg k).toNat +
        (if k ∈ ds ∧ deg k = 1 then 1 else 0))).sum ≤
      (keys.map (fun k => (deg k).toNat)).sum := by
    apply List.sum_le_sum
    intro k hk
    exact hpoint k hk
  rw [sum_map_add_distrib] at hsum
  have hind := sum_map_indicator keys (fun k => k ∈ ds ∧ deg k = 1)
  have hcount : (keys.filter
      (fun k => decide (k ∈ ds ∧ deg k = 1))).length =
      (ds.filter (fun d => deg d = 1)).length := by
    apply nodup_filter_length_eq
    · exact hknd.filter _
    · exact hdnd.filter _
    · intro x
      simp only [List.mem_filter, decide_eq_true_eq]
      constructor
      · rintro ⟨_, hx, hd⟩
        exact ⟨hx, by simpa using hd⟩
      · rintro ⟨hx, hd⟩
        exact ⟨hsub x hx, hx, by simpa using hd⟩
  omega

/-- The loop invariant of `topological_sort`'s Kahn phase. -/
structure KahnInv (g : Graph) (deg : String → Int)
    (queue result : List String) : Prop where
  nodup : (result ++ queue).Nodup
  subset : ∀ k ∈ result ++ queue, k ∈ dictKeys g
  degEq : ∀ k ∈ dictKeys g, deg k =
    ((getPrerequisites g k).length : Int) -
      ((result.filter (fun τ => τ ∈ getPrerequisites g k)).length : Int)
  queueZero : ∀ k ∈ queue, deg k = 0
  resultZero : ∀ k ∈ result, deg k = 0
  pw : result.Pairwise (fun a b => b ∉ getPrerequisites g a)
  zeroMem : ∀ k ∈ dictKeys g, deg k = 0 → k ∈ result ∨ k ∈ queue

theorem KahnInv.result_nodup {g deg queue result}
    (inv : KahnInv g deg queue result) : result.Nodup :=
  (List.nodup_append.mp inv.nodup).1

theorem KahnInv.prereqs_in_result {g deg queue result}
    (inv : KahnInv g deg queue result) (k : String)
    (hk : k ∈ dictKeys g) (h0 : deg k = 0) :
    (∀ p ∈ getPrerequisites g k, p ∈ result) ∧
      (getPrerequisites g k).Nodup := by
  have hde := inv.degEq k hk
  rw [h0] at hde
  have hlen : (result.filter
      (fun τ => τ ∈ getPrerequisites g k)).length =
      (getPrerequisites g k).length := by omega
  exact filter_mem_length_eq result (getPrerequisites g k)
    inv.result_nodup hlen

/-- Kahn loop correctness: from an invariant state, with enough fuel (one
unit per pop, which the caller's allowance covers), the loop reaches the
empty queue with the invariant intact. -/
theorem kahnLoopF_spec (g : Graph) (hK : (dictKeys g).Nodup)
    (hA : Acyclic g) :
    ∀ (fuel : Nat) (deg : String → Int) (queue result : List String),
      KahnInv g deg queue result →
      queue.length + ((dictKeys g).map (fun k => (deg k).toNat)).sum ≤
        fuel →
      ∃ (degF : String → Int),
        KahnInv g degF [] (kahnLoopF g fuel deg queue result) := by
  intro fuel
  induction fuel with
  | zero =>
    intro deg queue result inv hm
    have hq : queue = [] := List.length_eq_zero.mp (by omega)
    subst hq
    exact ⟨deg, inv⟩
  | succ fuel ih =>
    intro deg queue result inv hm
    cases queue with
    | nil => exact ⟨deg, inv⟩
    | cons t rest =>
      have hdnd : (getDependents g t).Nodup := getDependents_nodup g hK t
      have hdsub := getDependents_subset_keys g t
      have hdegP := processDeps_deg (getDependents g t) hdnd deg rest
      have hqP := processDeps_queue (getDependents g t) hdnd deg rest
      have ht0 : deg t = 0 := inv.queueZero t (by simp)
      have htk : t ∈ dictKeys g := inv.subset t (by simp)
      have hprt := inv.prereqs_in_result t htk ht0
      have hdisj : result.Disjoint (t :: rest) :=
        (List.nodup_append.mp inv.nodup).2.2
      have htnr : t ∉ result := fun h => hdisj h (by simp)
      have hA1 : ∀ k ∈ result, k ∉ getDependents g t := by
        intro k hk hkd
        have hkk : k ∈ dictKeys g := inv.subset k (by simp [hk])
        have hk0 : deg k = 0 := inv.resultZero k hk
        exact htnr ((inv.prereqs_in_result k hkk hk0).1 t
          ((mem_getDependents g hK t k).mp hkd).2)
      have hB : ∀ k ∈ rest, k ∉ getDependents g t := by
        intro k hk hkd
        have hkk : k ∈ dictKeys g := inv.subset k (by simp [hk])
        have hk0 : deg k = 0 := inv.queueZero k (by simp [hk])
        exact htnr ((inv.prereqs_in_result k hkk hk0).1 t
          ((mem_getDependents g hK t k).mp hkd).2)
      have hC : t ∉ getDependents g t := by
        intro htd
        exact acc_no_transGen_self (hA t) (Relation.TransGen.single
          ((mem_getDependents g hK t t).mp htd).2)
      have henqD : ∀ k ∈ (getDependents g t).filter (fun d => deg d = 1),
          deg k = 1 ∧ k ∈ getDependents g t := by
        intro k hk
        have h1 := List.of_mem_filter hk
        have h2 := List.mem_of_mem_filter hk
        simp only [decide_eq_true_eq] at h1
        exact ⟨h1, h2⟩
      have hDnew : ∀ k ∈ (getDependents g t).filter (fun d => deg d = 1),
          k ∉ result ∧ k ∉ t :: rest := by
        intro k hk
        obtain ⟨h1, _⟩ := henqD k hk
        constructor
        · intro hkr
          have := inv.resultZero k hkr
          omega
        · intro hkq
          have := inv.queueZero k hkq
          omega
      have hmemdep : ∀ k ∈ dictKeys g,
          (k ∈ getDependents g t ↔ t ∈ getPrerequisites g k) := by
        intro k hkk
        constructor
        · intro h
          exact ((mem_getDependents g hK t k).mp h).2
        · intro h
          exact (mem_getDependents g hK t k).mpr ⟨hkk, h⟩
      have inv' : KahnInv g (processDeps (getDependents g t) deg rest).1
          (rest ++ (getDependents g t).filter (fun d => deg d = 1))
          (result ++ [t]) := by
        refine ⟨?_, ?_, ?_, ?_, ?_, ?_, ?_⟩
        · rw [show (result ++ [t]) ++
            (rest ++ (getDependents g t).filter (fun d => deg d = 1)) =
            (result ++ t :: rest) ++
              (getDependents g t).filter (fun d => deg d = 1) by
            simp]
          rw [List.nodup_append]
          refine ⟨inv.nodup, hdnd.filter _, ?_⟩
          intro a ha hb
          obtain ⟨h1, h2⟩ := hDnew a hb
          rcases List.mem_append.mp ha with h | h
          · exact h1 h
          · exact h2 h
        · intro k hk
          rcases List.mem_append.mp hk with hk | hk
          · rcases List.mem_append.mp hk with hk | hk
            · exact inv.subset k (by simp [hk])
            · rw [List.mem_singleton.mp hk]
              exact htk
          · rcases List.mem_append.mp hk with hk | hk
            · exact inv.subset k (by simp [hk])
            · exact hdsub k (List.mem_of_mem_filter hk)
        · intro k hkk
          rw [hdegP k]
          have hold := inv.degEq k hkk
          rw [List.filter_append]
          simp only [List.length_append]
          by_cases hkd : k ∈ getDependents g t
          · have htp : t ∈ getPrerequisites g k := (hmemdep k hkk).mp hkd
            rw [if_pos hkd]
            rw [show ([t].filter (fun τ => τ ∈ getPrerequisites g k)) = [t] by
              simp [htp]]
            simp only [List.length_singleton]
            omega
          · have htp : t ∉ getPrerequisites g k :=
              fun h => hkd ((hmemdep k hkk).mpr h)
            rw [if_neg hkd]
            rw [show ([t].filter (fun τ => τ ∈ getPrerequisites g k)) = [] by
              simp [htp]]
            simp only [List.length_nil]
            omega
        · intro k hk
          rw [hdegP k]
          rcases List.mem_append.mp hk with hk | hk
          · rw [if_neg (hB k hk)]
            exact inv.queueZero k (by simp [hk])
          · obtain ⟨h1, h2⟩ := henqD k hk
            rw [if_pos h2]
            omega
        · intro k hk
          rw [hdegP k]
          rcases List.mem_append.mp hk with hk | hk
          · rw [if_neg (hA1 k hk)]
            exact inv.resultZero k hk
          · rw [List.mem_singleton.mp hk, if_neg hC]
            exact ht0
        · rw [List.pairwise_append]
          refine ⟨inv.pw, by simp, ?_⟩
          intro a ha b hb
          rw [List.mem_singleton.mp hb]
          intro htpa
          have hak : a ∈ dictKeys g := inv.subset a (by simp [ha])
          have ha0 : deg a = 0 := inv.resultZero a ha
          exact htnr ((inv.prereqs_in_result a hak ha0).1 t htpa)
        · intro k hkk hk0
          rw [hdegP k] at hk0
          by_cases hkd : k ∈ getDependents g t
          · rw [if_pos hkd] at hk0
            refine Or.inr (List.mem_append.mpr (Or.inr ?_))
            exact List.mem_filter.mpr ⟨hkd, by simp; omega⟩
          · rw [if_neg hkd] at hk0
            rcases inv.zeroMem k hkk hk0 with hk | hk
            · exact Or.inl (by simp [hk])
            · rcases List.mem_cons.mp hk with rfl | hk
              · exact Or.inl (by simp)
              · exact Or.inr (by simp [hk])
      have hmes : (rest ++ (getDependents g t).filter
            (fun d => deg d = 1)).length +
          ((dictKeys g).map
            (fun k => ((processDeps (getDependents g t) deg rest).1
              k).toNat)).sum ≤ fuel := by
        have hrw : (dictKeys g).map
            (fun k => ((processDeps (getDependents g t) deg rest).1
              k).toNat) = (dictKeys g).map
            (fun k => (if k ∈ getDependents g t then deg k - 1
              else deg k).toNat) :=
          List.map_congr_left (fun k _ => by rw [hdegP k])
        rw [hrw, List.length_append]
        have hdec := sum_toNat_decrement (dictKeys g) deg
          (getDependents g t) hK hdnd hdsub
        simp only [List.length_cons] at hm
        omega
      have := ih (processDeps (getDependents g t) deg rest).1
        (rest ++ (getDependents g t).filter (fun d => deg d = 1))
        (result ++ [t]) inv' hmes
      rw [show kahnLoopF g (fuel + 1) deg (t :: rest) result =
        kahnLoopF g fuel (processDeps (getDependents g t) deg rest).1
          (processDeps (getDependents g t) deg rest).2
          (result ++ [t]) from rfl]
      rw [hqP]
      exact this

/-- The state `topological_sort` enters the loop with satisfies the
invariant. -/
theorem kahn_initial_inv (g : Graph) (hK : (dictKeys g).Nodup) :
    KahnInv g (initialDegree g)
      ((dictKeys g).filter (fun t => initialDegree g t = 0)) [] := by
  refine ⟨?_, ?_, ?_, ?_, ?_, ?_, ?_⟩
  · simpa using hK.filter _
  · intro k hk
    simp only [List.nil_append] at hk
    exact List.mem_of_mem_filter hk
  · intro k _
    simp [initialDegree]
  · intro k hk
    have := List.of_mem_filter hk
    simpa using this
  · intro k hk
    simp at hk
  · exact List.Pairwise.nil
  · intro k hkk h0
    exact Or.inr (List.mem_filter.mpr ⟨hkk, by simpa using h0⟩)

/-- From a final invariant state (empty queue) of Kahn's loop on an acyclic
graph whose prerequisites all name topics and repeat none, the result is a
valid topological order of all the topics. -/
theorem kahnInv_final_valid (g : Graph)
    (hA : Acyclic g) (degF : String → Int) (resF : List String)
    (invF : KahnInv g degF [] resF)
    (hclosed : ∀ k ∈ dictKeys g, ∀ p ∈ getPrerequisites g k,
      p ∈ dictKeys g)
    (hnds : ∀ k ∈ dictKeys g, (getPrerequisites g k).Nodup) :
    (∀ k ∈ dictKeys g, k ∈ resF) ∧
    (∀ k ∈ resF, k ∈ dictKeys g) ∧
    resF.Nodup ∧
    (∀ k ∈ resF, ∀ p ∈ getPrerequisites g k,
      resF.indexOf p < resF.indexOf k) := by
  have hcomp : ∀ k, k ∈ dictKeys g → k ∈ resF := by
    intro k
    have hacc := hA k
    induction hacc with
    | intro t _ ih =>
      intro htk
      have hfl : (resF.filter
          (fun τ => τ ∈ getPrerequisites g t)).length =
          (getPrerequisites g t).length :=
        filter_mem_length_of_subset resF (getPrerequisites g t)
          invF.result_nodup (hnds t htk)
          (fun p hp => ih p hp (hclosed t htk p hp))
      have h0 : degF t = 0 := by
        have hdt := invF.degEq t htk
        rw [hfl] at hdt
        omega
      rcases invF.zeroMem t htk h0 with h | h
      · exact h
      · simp at h
  refine ⟨hcomp, ?_, invF.result_nodup, ?_⟩
  · intro k hk
    exact invF.subset k (by simp [hk])
  · intro k hk p hp
    have hkk : k ∈ dictKeys g := invF.subset k (by simp [hk])
    have hk0 : degF k = 0 := invF.resultZero k hk
    have hpres : p ∈ resF := (invF.prereqs_in_result k hkk hk0).1 p hp
    have hpi : resF.indexOf p < resF.length :=
      List.indexOf_lt_length.mpr hpres
    have hki : resF.indexOf k < resF.length :=
      List.indexOf_lt_length.mpr hk
    by_contra hle
    push_neg at hle
    rcases Nat.lt_or_ge (resF.indexOf k) (resF.indexOf p) with hlt | hge
    · have hpair := List.pairwise_iff_getElem.mp invF.pw
        (resF.indexOf k) (resF.indexOf p) hki hpi hlt
      rw [List.getElem_indexOf hki, List.getElem_indexOf hpi] at hpair
      exact hpair hp
    · have heq : resF.indexOf k = resF.indexOf p := by omega
      have hpk : p = k := ((List.indexOf_inj hk hpres).mp heq).symm
      rw [hpk] at hp
      exact acc_no_transGen_self (hA k) (Relation.TransGen.single hp)

/-- C9: on a graph built by `add_topic` calls in which every listed
prerequisite is itself a topic of the graph and no prerequisite list
repeats an entry, `topological_sort` returns every topic exactly once and
places each prerequisite at a strictly smaller index than its dependent.
(Without the closure proviso the claim fails: a dangling prerequisite keeps
its dependent's in-degree positive forever, and the topic is silently
dropped — see the counterexample.) -/
theorem topological_sort_valid (g : Graph) (hb : Built g)
    (hclosed : ∀ k ∈ dictKeys g, ∀ p ∈ getPrerequisites g k,
      p ∈ dictKeys g)
    (hnds : ∀ k ∈ dictKeys g, (getPrerequisites g k).Nodup) :
    (∀ k ∈ dictKeys g, k ∈ topologicalSort g) ∧
    (∀ k ∈ topologicalSort g, k ∈ dictKeys g) ∧
    (topologicalSort g).Nodup ∧
    (∀ k ∈ topologicalSort g, ∀ p ∈ getPrerequisites g k,
      (topologicalSort g).indexOf p < (topologicalSort g).indexOf k) := by
  have hK := built_nodup_keys g hb
  have hA := built_acyclic g hb
  have hfuel : ((dictKeys g).filter
        (fun t => initialDegree g t = 0)).length +
      ((dictKeys g).map (fun k => (initialDegree g k).toNat)).sum ≤
      (dictKeys g).length +
        ((dictKeys g).map (fun k => (initialDegree g k).toNat)).sum + 1 := by
    have hle := List.length_filter_le
      (fun t => decide (initialDegree g t = 0)) (dictKeys g)
    omega
  obtain ⟨degF, invF⟩ := kahnLoopF_spec g hK hA
    ((dictKeys g).length +
      ((dictKeys g).map (fun k => (initialDegree g k).toNat)).sum + 1)
    (initialDegree g)
    ((dictKeys g).filter (fun t => initialDegree g t = 0)) []
    (kahn_initial_inv g hK) hfuel
  exact kahnInv_final_valid g hA degF (topologicalSort g) invF
    hclosed hnds

/-- A successful `add_topic` may record a prerequisite that is not itself a
topic; `topological_sort` then omits the topic entirely, refuting the
claim that every topic of the graph appears in the output. -/
theorem topological_sort_omits_dangling :
    (addTopic ([] : Graph) "b" ["a"]).2 = none ∧
    "b" ∈ dictKeys (addTopic ([] : Graph) "b" ["a"]).1 ∧
    "b" ∉ topologicalSort (addTopic ([] : Graph) "b" ["a"]).1 := by
  decide

theorem topological_sort_valid_witness :
    (∀ k ∈ dictKeys (addTopic (addTopic ([] : Graph) "a" []).1 "b"
        ["a"]).1,
      k ∈ topologicalSort (addTopic (addTopic ([] : Graph) "a" []).1 "b"
        ["a"]).1) ∧
    (∀ k ∈ topologicalSort (addTopic (addTopic ([] : Graph) "a" []).1 "b"
        ["a"]).1,
      k ∈ dictKeys (addTopic (addTopic ([] : Graph) "a" []).1 "b"
        ["a"]).1) ∧
    (topologicalSort (addTopic (addTopic ([] : Graph) "a" []).1 "b"
        ["a"]).1).Nodup ∧
    (∀ k ∈ topologicalSort (addTopic (addTopic ([] : Graph) "a" []).1 "b"
        ["a"]).1,
      ∀ p ∈ getPrerequisites (addTopic (addTopic ([] : Graph) "a" []).1
        "b" ["a"]).1 k,
      (topologicalSort (addTopic (addTopic ([] : Graph) "a" []).1 "b"
        ["a"]).1).indexOf p <
        (topologicalSort (addTopic (addTopic ([] : Graph) "a" []).1 "b"
          ["a"]).1).indexOf k) :=
  topological_sort_valid _
    (Built.step "b" ["a"] (Built.step "a" [] Built.nil (by decide))
      (by decide))
    (by decide) (by decide)

end CalculusRag
